import Mathlib

/-!
# Verification of the task scheduling and state engine

A shallow embedding, in Lean 4, of the core logic of `parse_tasks.py`:
the dependency-graph resolver (`topological_sort`), the business-hours
allocator (`allocate_schedule`), the lifecycle state machine
(`update_task_status`, `move_task_to_status`, `on_drop`), and the
progress/blocking aggregator (`calc_progress_all`, `get_block_reasons`).

Modelling conventions:
* Python floats are modelled as exact rationals (`ℚ`); Python ints as `ℤ`;
  Python strings as `String`.
* Wall-clock timestamps (`datetime` objects / ISO strings) are modelled as
  whole seconds (`ℤ`).  `int(elapsed)` truncation is the identity in this
  integer model.
* A Python dict with insertion order (`tasks_all`) is an association list
  `List (String × Task)`; dict-key uniqueness is an explicit hypothesis.
* `round(x, n)` (Python bankers rounding) is `roundHalfEven`.
* The interactive comment dialog is out of the core: the comment reaches
  `update_task_status` as an explicit parameter.
* State mutated in place plus a raised exception is modelled by returning
  the final record state together with an `Option String` error.
-/

namespace AutoTask

/-! ## Python-level helpers -/

/-- Python truthiness of an optional string (`None` and `""` are falsy). -/
def pyTruthy : Option String → Bool
  | none => false
  | some s => s ≠ ""

/-- Python `round` to an integer: round half to even (bankers rounding). -/
def roundHalfEven (q : ℚ) : ℤ :=
  let f : ℤ := ⌊q⌋
  let r : ℚ := q - f
  if r < 1/2 then f
  else if 1/2 < r then f + 1
  else if f % 2 = 0 then f else f + 1

/-- Python `round(x, 2)`: bankers rounding at two decimal places. -/
def round2 (q : ℚ) : ℚ := (roundHalfEven (q * 100) : ℚ) / 100

/-! ## Data model

The `Task` record, mirroring the dict built by `load_all_tasks`.
The source column `Task` (the human-readable name) is the field `title`.
`scheduledStart`/`scheduledEnd` hold rational hours since midnight of a
reference day 0; all other time fields hold whole seconds. -/

structure Task where
  project : String
  milestone : String
  title : String
  taskId : String
  dependsOn : List String
  estimatedHours : ℚ
  priority : String
  owner : String
  status : String
  actualHours : ℚ
  lastComment : Option String
  commentLog : Option String
  lastUpdated : Option Int
  actualSeconds : Int
  inProgressStart : Option Int
  scheduledStart : Option ℚ
  scheduledEnd : Option ℚ
deriving DecidableEq

/-- The five Kanban statuses (`KANBAN_STATUSES`). -/
def KANBAN_STATUSES : List String :=
  ["Pending", "In Progress", "Paused", "Completed", "Canceled"]

/-- First entry of the association list with the given key
(Python `tasks_all.get(tid)`; dict keys are unique by hypothesis). -/
def findTask (tasksAll : List (String × Task)) (tid : String) : Option Task :=
  (tasksAll.find? (fun p => p.1 = tid)).map (fun p => p.2)

/-- The dependency list of a task id (empty for an unknown id). -/
def depsOf (tasksAll : List (String × Task)) (tid : String) : List String :=
  match findTask tasksAll tid with
  | some t => t.dependsOn
  | none => []

/-- Replace the record stored under a key (in-place mutation of the dict
entry shared with the caller). -/
def setTask (tasksAll : List (String × Task)) (tid : String) (t : Task) :
    List (String × Task) :=
  tasksAll.map (fun p => if p.1 = tid then (p.1, t) else p)

/-! ## Blocked logic (`get_block_reasons` / `is_blocked`) -/

/-- One human-readable reason per failing dependency. -/
def get_block_reasons (task : Task) (tasksAll : List (String × Task)) :
    List String :=
  task.dependsOn.filterMap (fun depId =>
    match findTask tasksAll depId with
    | none => some ("Depends on missing task " ++ depId)
    | some dep =>
        if dep.status ≠ "Completed" then
          some ("Waiting on " ++ depId ++ " (" ++ dep.title ++ ") owned by "
                ++ dep.owner)
        else none)

/-- A task is blocked iff it has at least one block reason. -/
def is_blocked (task : Task) (tasksAll : List (String × Task)) : Bool :=
  0 < (get_block_reasons task tasksAll).length

/-! ## Status / comments / timing (`update_task_status`) -/

/-- One audit-trail entry: `timestamp | label: comment-or-empty`. -/
def commentEntry (now : Int) (label : String) (comment : Option String) :
    String :=
  toString now ++ " | " ++ label ++ ": " ++ comment.getD ""

/-- `append_comment_log`: append an entry, update `LastComment` and
`LastUpdated`. -/
def append_comment_log (task : Task) (label : String) (comment : Option String)
    (now : Int) : Task :=
  let entry := commentEntry now label comment
  let newLog :=
    match task.commentLog with
    | some log => if log ≠ "" then log ++ "\n" ++ entry else entry
    | none => entry
  { task with commentLog := some newLog, lastComment := comment,
              lastUpdated := some now }

/-- `update_task_status`.  Returns the final record state together with
`some errorMessage` when the `ValueError` is raised.  Note that, exactly as
in the source, the timing side effects run *before* the status validation,
so a record can be mutated even on the error path. -/
def update_task_status (task : Task) (status : String) (now : Int)
    (comment : Option String) (actionLabel : Option String) :
    Task × Option String :=
  let prevStatus := task.status
  let inStart := task.inProgressStart
  -- If leaving In Progress, accumulate time
  let task :=
    if prevStatus = "In Progress" ∧ status ≠ "In Progress" then
      let task :=
        match inStart with
        | some s =>
            { task with actualSeconds := task.actualSeconds + max 0 (now - s) }
        | none => task
      let task := { task with inProgressStart := none }
      { task with actualHours := round2 ((task.actualSeconds : ℚ) / 3600) }
    else task
  -- If entering In Progress, start session
  let task :=
    if status = "In Progress" ∧ prevStatus ≠ "In Progress" then
      if task.inProgressStart = none then
        { task with inProgressStart := some now }
      else task
    else task
  if status ∉ KANBAN_STATUSES then
    (task, some ("Invalid task status: " ++ status))
  else
    let task := { task with status := status }
    let label := actionLabel.getD ("Status -> " ++ status)
    (append_comment_log task label comment now, none)

/-! ## Helpers (`calc_progress_all`) -/

/-- Whether a task survives the optional project/milestone filters
(the source skips a task when `project and t.Project != project`, with
Python truthiness on the filter value). -/
def scopeKeep (project milestone : Option String) (t : Task) : Bool :=
  (!pyTruthy project || t.project == project.getD "") &&
  (!pyTruthy milestone || t.milestone == milestone.getD "")

/-- `calc_progress_all`: percent complete over a project/milestone scope,
all owners; `0` on an empty scope. -/
def calc_progress_all (tasksAll : List (String × Task))
    (project milestone : Option String) : Int :=
  let relevant := (tasksAll.map Prod.snd).filter (scopeKeep project milestone)
  if relevant.isEmpty then 0
  else
    let completed := relevant.countP (fun t => t.status == "Completed")
    roundHalfEven (((completed : ℚ) / relevant.length) * 100)

/-! ## Kanban transition surface (`move_task_to_status`, `on_drop`) -/

/-- First task of the given owner currently `In Progress`
(`get_first_in_progress`). -/
def get_first_in_progress (tasksAll : List (String × Task)) (owner : String) :
    Option Task :=
  (tasksAll.map Prod.snd).find?
    (fun t => t.owner == owner && t.status == "In Progress")

/-- `enforce_single_in_progress`: allow starting `t` only when the owner has
no other active task. -/
def enforce_single_in_progress (tasksAll : List (String × Task))
    (owner : String) (targetTask : Task) : Bool :=
  match get_first_in_progress tasksAll owner with
  | some ip => ip = targetTask
  | none => true

/-- `ensure_owner`: only the viewing owner may move their own tasks. -/
def ensure_owner (t : Task) (owner : String) : Bool := t.owner == owner

/-- `move_task_to_status`: ownership, blocking and single-active guards,
then the transition.  Returns the (possibly updated) task map and the
boolean the source returns (`false` also when the inner `ValueError`
escapes, in which case the map still holds the partially mutated record). -/
def move_task_to_status (tasksAll : List (String × Task)) (t : Task)
    (newStatus : String) (owner : String) (now : Int)
    (comment : Option String) (actionLabel : Option String) :
    List (String × Task) × Bool :=
  if ¬ ensure_owner t owner then (tasksAll, false)
  else if newStatus = "In Progress" ∧ is_blocked t tasksAll then
    (tasksAll, false)
  else if newStatus = "In Progress" ∧
      ¬ enforce_single_in_progress tasksAll owner t then
    (tasksAll, false)
  else
    let r := update_task_status t newStatus now comment
               (some (actionLabel.getD ("Move -> " ++ newStatus)))
    (setTask tasksAll t.taskId r.1, r.2.isNone)

/-- The drag-and-drop transition table of `on_drop`
(`allowed.get(status, set())`). -/
def allowedTargets (src : String) : List String :=
  if src = "Pending" then ["In Progress", "Canceled"]
  else if src = "Paused" then ["In Progress", "Canceled"]
  else if src = "In Progress" then ["Paused", "Completed", "Canceled"]
  else if src = "Completed" then []
  else if src = "Canceled" then []
  else []

/-- Outcome of a drop gesture. -/
inductive DropResult where
  | noTarget
  | sameColumn
  | missingTask
  | illegal
  | moved (ok : Bool)
deriving DecidableEq

/-- `on_drop`: the drag-and-drop handler, minus the UI bookkeeping.
`sourceStatus` is the column the drag started from; `targetStatus` is the
column under the pointer (or `none`). -/
def on_drop (tasksAll : List (String × Task)) (owner : String) (tid : String)
    (sourceStatus : String) (targetStatus : Option String) (now : Int)
    (comment : Option String) : List (String × Task) × DropResult :=
  match targetStatus with
  | none => (tasksAll, .noTarget)
  | some tgt =>
    if tgt = sourceStatus then (tasksAll, .sameColumn)
    else
      match findTask tasksAll tid with
      | none => (tasksAll, .missingTask)
      | some t =>
        if tgt ∈ allowedTargets t.status then
          let r := move_task_to_status tasksAll t tgt owner now comment none
          (r.1, .moved r.2)
        else (tasksAll, .illegal)

/-- The transition table as written in the specification (§4.3), including
the `Completed → Pending` reopen row.  This definition follows the spec
text, for comparison with `allowedTargets`, which follows the source. -/
def specLegalPairs : List (String × String) :=
  [("Pending", "In Progress"), ("Pending", "Canceled"),
   ("Paused", "In Progress"), ("Paused", "Canceled"),
   ("In Progress", "Paused"), ("In Progress", "Completed"),
   ("In Progress", "Canceled"),
   ("Completed", "Pending")]

/-! ## Sample records used by witnesses and counterexamples -/

/-- A plain pending task. -/
def sampleTask : Task :=
  { project := "P", milestone := "M", title := "T", taskId := "T1",
    dependsOn := [], estimatedHours := 1, priority := "High", owner := "O",
    status := "Pending", actualHours := 0, lastComment := none,
    commentLog := none, lastUpdated := none, actualSeconds := 0,
    inProgressStart := none, scheduledStart := none, scheduledEnd := none }

/-- A task with an active `In Progress` session started at second 100. -/
def activeTask : Task :=
  { sampleTask with status := "In Progress", inProgressStart := some 100 }

/-- A completed task with some accumulated time. -/
def doneTask : Task :=
  { sampleTask with status := "Completed", actualSeconds := 5 }

/-! ## Facts about `update_task_status` shared by several proofs -/

/-- `update_task_status` never touches ownership or identity, and on the
error path it leaves the status untouched. -/
theorem update_static_fields (task : Task) (status : String) (now : Int)
    (comment : Option String) (label : Option String) :
    (update_task_status task status now comment label).1.owner = task.owner ∧
    (update_task_status task status now comment label).1.taskId = task.taskId := by
  cases h : task.inProgressStart <;>
    simp only [update_task_status, h] <;> split_ifs <;>
    simp [append_comment_log]

/-- With a valid target status the transition succeeds and writes it. -/
theorem update_status_valid (task : Task) (status : String) (now : Int)
    (comment : Option String) (label : Option String)
    (hv : status ∈ KANBAN_STATUSES) :
    (update_task_status task status now comment label).1.status = status ∧
    (update_task_status task status now comment label).2 = none := by
  cases h : task.inProgressStart <;>
    simp only [update_task_status, h] <;> split_ifs <;>
    simp_all [append_comment_log]

/-- With an invalid target status the `ValueError` is raised and the status
field is left untouched. -/
theorem update_status_invalid (task : Task) (status : String) (now : Int)
    (comment : Option String) (label : Option String)
    (hv : status ∉ KANBAN_STATUSES) :
    (update_task_status task status now comment label).1.status = task.status ∧
    (update_task_status task status now comment label).2.isSome = true := by
  cases h : task.inProgressStart <;>
    simp only [update_task_status, h] <;> split_ifs <;>
    simp_all [append_comment_log]

/-!  ## C3 — time accounting on transitions -/

/-- **C3**: leaving `In Progress` with a live session adds
`max 0 (now − InProgressStart)` whole seconds to `ActualSeconds`, clears
`InProgressStart` and recomputes `ActualHours = round(ActualSeconds/3600, 2)`;
entering `In Progress` sets `InProgressStart` to `now` only when it is unset
(idempotent); and the reopen transition `Completed → Pending` leaves
`ActualSeconds` unchanged. -/
theorem c3_time_accounting :
    (∀ (task : Task) (status : String) (now : Int) (comment : Option String)
        (label : Option String) (s : Int),
        task.status = "In Progress" → status ≠ "In Progress" →
        task.inProgressStart = some s →
        (update_task_status task status now comment label).1.actualSeconds
            = task.actualSeconds + max 0 (now - s) ∧
        (update_task_status task status now comment label).1.inProgressStart
            = none ∧
        (update_task_status task status now comment label).1.actualHours
            = round2 (((task.actualSeconds + max 0 (now - s) : ℤ) : ℚ) / 3600)) ∧
    (∀ (task : Task) (now : Int) (comment : Option String)
        (label : Option String),
        task.status ≠ "In Progress" →
        (update_task_status task "In Progress" now comment label).1.inProgressStart
          = some (task.inProgressStart.getD now)) ∧
    (∀ (task : Task) (now : Int) (comment : Option String)
        (label : Option String),
        task.status = "Completed" →
        (update_task_status task "Pending" now comment label).1.actualSeconds
          = task.actualSeconds) := by
  refine ⟨?_, ?_, ?_⟩
  · intro task status now comment label s hip hne hs
    by_cases hv : status ∈ KANBAN_STATUSES <;>
      simp [update_task_status, hip, hs, hne, hv, append_comment_log]
  · intro task now comment label hne
    cases h : task.inProgressStart with
    | none =>
        simp [update_task_status, hne, h, KANBAN_STATUSES, append_comment_log]
    | some x =>
        simp [update_task_status, hne, h, KANBAN_STATUSES, append_comment_log]
  · intro task now comment label hc
    simp [update_task_status, hc, KANBAN_STATUSES, append_comment_log]

/-- Witness for C3 at concrete records. -/
theorem c3_time_accounting_witness :
    ((update_task_status activeTask "Paused" 250 none none).1.actualSeconds
        = activeTask.actualSeconds + max 0 (250 - 100) ∧
     (update_task_status activeTask "Paused" 250 none none).1.inProgressStart
        = none ∧
     (update_task_status activeTask "Paused" 250 none none).1.actualHours
        = round2 (((activeTask.actualSeconds + max 0 (250 - 100) : ℤ) : ℚ) / 3600)) ∧
    (update_task_status sampleTask "In Progress" 77 none none).1.inProgressStart
        = some (sampleTask.inProgressStart.getD 77) ∧
    (update_task_status doneTask "Pending" 99 none none).1.actualSeconds
        = doneTask.actualSeconds :=
  ⟨c3_time_accounting.1 activeTask "Paused" 250 none none 100 rfl
      (by decide) rfl,
   c3_time_accounting.2.1 sampleTask 77 none none (by decide),
   c3_time_accounting.2.2 doneTask 99 none none rfl⟩

/-! ## C7 — rejected status strings -/

/-- **C7 counterexample**: calling the transition with the unknown status
`"Bogus"` on an `In Progress` task does raise, but the record is *not* left
unchanged: the accumulated seconds and the cleared session survive the
rejected call, contradicting the claimed atomicity. -/
theorem c7_counterexample :
    (update_task_status activeTask "Bogus" 250 none none).2.isSome = true ∧
    (update_task_status activeTask "Bogus" 250 none none).1.actualSeconds = 150 ∧
    activeTask.actualSeconds = 0 ∧
    (update_task_status activeTask "Bogus" 250 none none).1.inProgressStart
      = none ∧
    activeTask.inProgressStart = some 100 := by decide

/-- **C7 amended**: an unknown status string raises a ValidationError and the
status, comment log and audit fields are untouched; a task that is not
`In Progress` is left entirely unchanged; but a task that *is* `In Progress`
has the leaving-session side effects (seconds accumulated, session cleared,
hours recomputed) already applied when the error is raised. -/
theorem c7_amended (task : Task) (status : String) (now : Int)
    (comment : Option String) (label : Option String)
    (hv : status ∉ KANBAN_STATUSES) :
    (update_task_status task status now comment label).2.isSome = true ∧
    (update_task_status task status now comment label).1.status = task.status ∧
    (update_task_status task status now comment label).1.commentLog
      = task.commentLog ∧
    (update_task_status task status now comment label).1.lastComment
      = task.lastComment ∧
    (update_task_status task status now comment label).1.lastUpdated
      = task.lastUpdated ∧
    (task.status ≠ "In Progress" →
      (update_task_status task status now comment label).1 = task) ∧
    (task.status = "In Progress" →
      (update_task_status task status now comment label).1.inProgressStart
        = none ∧
      (update_task_status task status now comment label).1.actualSeconds
        = task.actualSeconds +
            (match task.inProgressStart with
             | some s => max 0 (now - s)
             | none => 0) ∧
      (update_task_status task status now comment label).1.actualHours
        = round2
            (((update_task_status task status now comment label).1.actualSeconds
               : ℚ) / 3600)) := by
  have hne : status ≠ "In Progress" := by
    intro h
    exact hv (by rw [h]; decide)
  by_cases hip : task.status = "In Progress"
  · cases h : task.inProgressStart with
    | none => simp [update_task_status, hip, hne, hv, h]
    | some s => simp [update_task_status, hip, hne, hv, h]
  · simp [update_task_status, hip, hne, hv]

/-- Witness for the amended C7. -/
theorem c7_amended_witness :
    (update_task_status activeTask "Bogus" 250 none none).2.isSome = true ∧
    (update_task_status activeTask "Bogus" 250 none none).1.status
      = activeTask.status :=
  ⟨(c7_amended activeTask "Bogus" 250 none none (by decide)).1,
   (c7_amended activeTask "Bogus" 250 none none (by decide)).2.1⟩

/-! ## C1 — the drag-and-drop transition table -/

/-- Every target in the drop table is one of the five statuses. -/
theorem allowedTargets_valid (src tgt : String)
    (h : tgt ∈ allowedTargets src) : tgt ∈ KANBAN_STATUSES := by
  unfold allowedTargets at h
  split_ifs at h <;> simp_all [KANBAN_STATUSES] <;> tauto

/-- A successful lookup means the pair is in the association list. -/
theorem findTask_mem {tasksAll : List (String × Task)} {tid : String}
    {t : Task} (h : findTask tasksAll tid = some t) : (tid, t) ∈ tasksAll := by
  unfold findTask at h
  cases hf : tasksAll.find? (fun p => p.1 = tid) with
  | none => simp [hf] at h
  | some p =>
      have hp := List.find?_some hf
      have hmem := List.mem_of_find?_eq_some hf
      simp only [hf, Option.map_some, Option.some_inj] at h
      have : p.1 = tid := by simpa using hp
      rcases p with ⟨k, v⟩
      simp_all

/-- After replacing the record stored under an existing key, a lookup of
that key returns the new record. -/
theorem findTask_setTask_self (tasksAll : List (String × Task)) (tid : String)
    (t t0 : Task) (h : findTask tasksAll tid = some t0) :
    findTask (setTask tasksAll tid t) tid = some t := by
  induction tasksAll with
  | nil => simp [findTask] at h
  | cons p rest ih =>
      by_cases hp : p.1 = tid
      · simp [findTask, setTask, List.find?, hp]
      · have h' : findTask rest tid = some t0 := by
          simpa [findTask, List.find?, hp] using h
        simpa [findTask, setTask, List.find?, hp] using ih h'

/-- **C1 counterexample**: the claim asserts that a `Completed` task can
always be moved back to `Pending` (the spec's reopen row), but the drop
handler's table has an empty target set for `Completed`, so the reopen drop
is rejected as an illegal move. -/
theorem c1_counterexample :
    on_drop [("T1", doneTask)] "O" "T1" "Completed" (some "Pending") 0 none
      = ([("T1", doneTask)], DropResult.illegal) ∧
    ("Completed", "Pending") ∈ specLegalPairs := by decide

/-- **C1 amended**: the code's table agrees with the spec's table on every
pair over the five statuses *except* `Completed → Pending`, which the code
rejects (so `Completed` is terminal in the code); a drop whose (source,
target) pair is outside the code's table is rejected with the
"Move not allowed" message and no change, and a drop whose pair is inside
the table proceeds, writing the target status, whenever the ownership,
blocking and single-active guards are satisfied.  (Same-column drops
return silently without an error.) -/
theorem c1_amended :
    (∀ src ∈ KANBAN_STATUSES, ∀ tgt ∈ KANBAN_STATUSES,
        (tgt ∈ allowedTargets src ↔
          ((src, tgt) ∈ specLegalPairs ∧
            ¬(src = "Completed" ∧ tgt = "Pending")))) ∧
    (∀ (tasksAll : List (String × Task)) (owner tid sourceStatus tgt : String)
        (now : Int) (comment : Option String) (t : Task),
        findTask tasksAll tid = some t → tgt ≠ sourceStatus →
        tgt ∉ allowedTargets t.status →
        on_drop tasksAll owner tid sourceStatus (some tgt) now comment
          = (tasksAll, DropResult.illegal)) ∧
    (∀ (tasksAll : List (String × Task)) (owner tid tgt : String)
        (now : Int) (comment : Option String) (t : Task),
        findTask tasksAll tid = some t → t.taskId = tid →
        tgt ≠ t.status → tgt ∈ allowedTargets t.status →
        ensure_owner t owner = true →
        ¬(tgt = "In Progress" ∧ is_blocked t tasksAll = true) →
        (tgt = "In Progress" →
          enforce_single_in_progress tasksAll owner t = true) →
        ∃ m t', on_drop tasksAll owner tid t.status (some tgt) now comment
            = (m, DropResult.moved true) ∧
          findTask m tid = some t' ∧ t'.status = tgt) := by
  refine ⟨by decide, ?_, ?_⟩
  · intro tasksAll owner tid sourceStatus tgt now comment t hfind hne htable
    simp [on_drop, hfind, hne, htable]
  · intro tasksAll owner tid tgt now comment t hfind hid hne htable howner
      hblocked hsingle
    have hval : tgt ∈ KANBAN_STATUSES := allowedTargets_valid _ _ htable
    have hupd := update_status_valid t tgt now comment
      (some ("Move -> " ++ tgt)) hval
    refine ⟨setTask tasksAll tid
        (update_task_status t tgt now comment (some ("Move -> " ++ tgt))).1,
      (update_task_status t tgt now comment (some ("Move -> " ++ tgt))).1,
      ?_, ?_, hupd.1⟩
    · have hmove : move_task_to_status tasksAll t tgt owner now comment none
          = (setTask tasksAll t.taskId
              (update_task_status t tgt now comment
                (some ("Move -> " ++ tgt))).1, true) := by
        rw [move_task_to_status, if_neg (by simp [howner]),
          if_neg hblocked, if_neg (by
            intro hc
            exact absurd (hsingle hc.1) (by simpa using hc.2))]
        simp [hupd.2]
      simp [on_drop, hfind, hne, htable, hmove, hid]
    · exact findTask_setTask_self tasksAll tid _ _ hfind

/-- Witness for the amended C1 (table equivalence instance and a concrete
accepted transition `Pending → In Progress`). -/
theorem c1_amended_witness :
    ("In Progress" ∈ allowedTargets "Pending" ↔
      (("Pending", "In Progress") ∈ specLegalPairs ∧
        ¬("Pending" = "Completed" ∧ "In Progress" = "Pending"))) ∧
    (∃ m t', on_drop [("T1", sampleTask)] "O" "T1" sampleTask.status
        (some "In Progress") 0 none = (m, DropResult.moved true) ∧
      findTask m "T1" = some t' ∧ t'.status = "In Progress") :=
  ⟨c1_amended.1 "Pending" (by decide) "In Progress" (by decide),
   c1_amended.2.2 [("T1", sampleTask)] "O" "T1" "In Progress" 0 none
     sampleTask rfl rfl (by decide) (by decide) (by decide)
     (by decide) (fun _ => by decide)⟩

/-! ## C4 — guards on entering In Progress, single-active invariant -/

/-- Number of `In Progress` tasks of one owner. -/
def ipCount (tasksAll : List (String × Task)) (o : String) : ℕ :=
  (tasksAll.map Prod.snd).countP
    (fun t => t.owner == o && t.status == "In Progress")

/-- The single-active-task-per-owner invariant. -/
def SingleActive (tasksAll : List (String × Task)) : Prop :=
  ∀ o, ipCount tasksAll o ≤ 1

/-- `move_task_to_status` either refuses with no change, or applies the
transition to the stored record with all three guards known to have
passed. -/
theorem move_result (tasksAll : List (String × Task)) (t : Task)
    (ns owner : String) (now : Int) (comment : Option String)
    (label : Option String) :
    (move_task_to_status tasksAll t ns owner now comment label
        = (tasksAll, false)) ∨
    (move_task_to_status tasksAll t ns owner now comment label
        = (setTask tasksAll t.taskId
            (update_task_status t ns now comment
              (some (label.getD ("Move -> " ++ ns)))).1,
           (update_task_status t ns now comment
              (some (label.getD ("Move -> " ++ ns)))).2.isNone) ∧
      ensure_owner t owner = true ∧
      (ns = "In Progress" → is_blocked t tasksAll = false) ∧
      (ns = "In Progress" →
        enforce_single_in_progress tasksAll owner t = true)) := by
  rw [move_task_to_status]
  split_ifs with h1 h2 h3
  · exact Or.inl rfl
  · exact Or.inl rfl
  · right
    refine ⟨rfl, h1, ?_, ?_⟩
    · intro h
      cases hb : is_blocked t tasksAll
      · rfl
      · exact absurd ⟨h, hb⟩ h2
    · intro h
      cases he : enforce_single_in_progress tasksAll owner t
      · exact absurd ⟨h, by simp [he]⟩ h3
      · rfl
  · exact Or.inl rfl

/-- Replacing a key that is absent from the list is a no-op. -/
theorem setTask_of_not_mem (l : List (String × Task)) (k : String) (t : Task)
    (h : k ∉ l.map Prod.fst) : setTask l k t = l := by
  induction l with
  | nil => rfl
  | cons p rest ih =>
      simp only [List.map_cons, List.mem_cons, not_or] at h
      have h1 : ¬ p.1 = k := fun hh => h.1 hh.symm
      show (if p.1 = k then (p.1, t) else p) :: setTask rest k t = p :: rest
      rw [if_neg h1, ih h.2]

/-- Effect of an in-place record replacement on a count over the stored
records (association list with unique keys). -/
theorem countP_setTask (l : List (String × Task)) (k : String) (t t2 : Task)
    (p : Task → Bool) (hnd : (l.map Prod.fst).Nodup) (hmem : (k, t) ∈ l) :
    ((setTask l k t2).map Prod.snd).countP p + (if p t then 1 else 0)
      = (l.map Prod.snd).countP p + (if p t2 then 1 else 0) := by
  induction l with
  | nil => cases hmem
  | cons q rest ih =>
      simp only [List.map_cons, List.nodup_cons] at hnd
      by_cases hq : q.1 = k
      · have hqe : q = (k, t) := by
          rcases List.mem_cons.mp hmem with h | h
          · exact h.symm
          · exfalso
            apply hnd.1
            rw [hq]
            exact List.mem_map.mpr ⟨(k, t), h, rfl⟩
        subst hqe
        have hrest : setTask rest k t2 = rest := by
          apply setTask_of_not_mem
          simpa using hnd.1
        have hcons : setTask ((k, t) :: rest) k t2
            = (k, t2) :: setTask rest k t2 := by
          simp [setTask]
        rw [hcons, hrest, List.map_cons, List.map_cons, List.countP_cons,
          List.countP_cons]
        dsimp only
        omega
      · have hmem2 : (k, t) ∈ rest := by
          rcases List.mem_cons.mp hmem with h | h
          · exact absurd (congrArg Prod.fst h.symm) hq
          · exact h
        have hih := ih hnd.2 hmem2
        have hcons : setTask (q :: rest) k t2 = q :: setTask rest k t2 := by
          simp [setTask, hq]
        rw [hcons, List.map_cons, List.map_cons, List.countP_cons,
          List.countP_cons]
        omega

/-- Two distinct members both matching a predicate force a count of two. -/
theorem two_le_countP {α : Type} (l : List α) (p : α → Bool) (a b : α)
    (ha : a ∈ l) (hb : b ∈ l) (hne : a ≠ b) (hpa : p a = true)
    (hpb : p b = true) : 2 ≤ l.countP p := by
  induction l with
  | nil => cases ha
  | cons c rest ih =>
      rcases List.mem_cons.mp ha with rfl | ha2
      · have hb2 : b ∈ rest := by
          rcases List.mem_cons.mp hb with rfl | h
          · exact absurd rfl hne
          · exact h
        have h1 : 0 < rest.countP p := List.countP_pos.mpr ⟨b, hb2, hpb⟩
        rw [List.countP_cons_of_pos _ _ hpa]
        omega
      · rcases List.mem_cons.mp hb with rfl | hb2
        · have h1 : 0 < rest.countP p := List.countP_pos.mpr ⟨a, ha2, hpa⟩
          rw [List.countP_cons_of_pos _ _ hpb]
          omega
        · have := ih ha2 hb2
          cases hpc : p c with
          | true => rw [List.countP_cons_of_pos _ _ hpc]; omega
          | false => rw [List.countP_cons_of_neg _ _ (by simp [hpc])]; omega

/-- Refusal half of C4. -/
theorem move_refused_of_blocked_or_busy (tasksAll : List (String × Task)) (t : Task) (owner : String)
    (now : Int) (comment : Option String) (label : Option String)
    (hfind : findTask tasksAll t.taskId = some t)
    (hsingle : SingleActive tasksAll)
    (hreason : is_blocked t tasksAll = true ∨
      ∃ t2 ∈ tasksAll.map Prod.snd,
        t2.owner = t.owner ∧ t2.status = "In Progress" ∧ t2 ≠ t) :
    move_task_to_status tasksAll t "In Progress" owner now comment label
      = (tasksAll, false) := by
  by_cases howner : ensure_owner t owner = true
  · have howner2 : t.owner = owner := by simpa [ensure_owner] using howner
    by_cases hblk : is_blocked t tasksAll = true
    · rw [move_task_to_status, if_neg (by simp [howner]), if_pos ⟨rfl, hblk⟩]
    · rcases hreason with h | ⟨t2, ht2mem, ht2own, ht2ip, ht2ne⟩
      · exact absurd h hblk
      · have hmem : t ∈ tasksAll.map Prod.snd :=
          List.mem_map.mpr ⟨(t.taskId, t), findTask_mem hfind, rfl⟩
        have hpred : (fun x : Task => x.owner == owner
            && x.status == "In Progress") t2 = true := by
          simp [ht2own, howner2, ht2ip]
        cases hf : (tasksAll.map Prod.snd).find?
            (fun x => x.owner == owner && x.status == "In Progress") with
        | none =>
            exact absurd hpred (List.find?_eq_none.mp hf t2 ht2mem)
        | some ip =>
            have hippred := List.find?_some hf
            have hipmem := List.mem_of_find?_eq_some hf
            have hipne : ip ≠ t := by
              intro h
              subst h
              have h2 := two_le_countP (tasksAll.map Prod.snd)
                (fun x : Task => x.owner == owner && x.status == "In Progress")
                ip t2 hipmem ht2mem (Ne.symm ht2ne) hippred hpred
              have h3 := hsingle owner
              rw [ipCount] at h3
              omega
            have henf : enforce_single_in_progress tasksAll owner t
                = false := by
              simp [enforce_single_in_progress, get_first_in_progress, hf,
                hipne]
            rw [move_task_to_status, if_neg (by simp [howner]),
              if_neg (by simp [hblk]), if_pos ⟨rfl, by simp [henf]⟩]
  · rw [move_task_to_status, if_pos (by simpa using howner)]

/-- Preservation half of C4. -/
theorem move_preserves_single_active (tasksAll : List (String × Task)) (t : Task)
    (ns owner : String) (now : Int) (comment : Option String)
    (label : Option String) (hnd : (tasksAll.map Prod.fst).Nodup)
    (hfind : findTask tasksAll t.taskId = some t)
    (hsingle : SingleActive tasksAll) :
    SingleActive
      (move_task_to_status tasksAll t ns owner now comment label).1 := by
  rcases move_result tasksAll t ns owner now comment label with
    h | ⟨heq, howner, hblk, henf⟩
  · rw [h]
    exact hsingle
  · rw [heq]
    intro o
    show ipCount (setTask tasksAll t.taskId
      (update_task_status t ns now comment
        (some (label.getD ("Move -> " ++ ns)))).1) o ≤ 1
    set R := update_task_status t ns now comment
      (some (label.getD ("Move -> " ++ ns))) with hR
    have hmem : (t.taskId, t) ∈ tasksAll := findTask_mem hfind
    have hkey := countP_setTask tasksAll t.taskId t R.1
      (fun x => x.owner == o && x.status == "In Progress") hnd hmem
    dsimp only at hkey
    have hstatic := update_static_fields t ns now comment
      (some (label.getD ("Move -> " ++ ns)))
    rw [← hR] at hstatic
    have hcount := hsingle o
    rw [ipCount] at hcount
    rw [ipCount]
    have howner2 : t.owner = owner := by simpa [ensure_owner] using howner
    by_cases hp2 : (R.1.owner == o && R.1.status == "In Progress") = true
    · have hpair := (Bool.and_eq_true _ _).mp hp2
      have howno : R.1.owner = o := by simpa using hpair.1
      have hipr : R.1.status = "In Progress" := by simpa using hpair.2
      have hto : t.owner = o := by rw [← howno, hstatic.1]
      have ho : owner = o := by rw [← howner2, hto]
      by_cases hv : ns ∈ KANBAN_STATUSES
      · have hupd := update_status_valid t ns now comment
          (some (label.getD ("Move -> " ++ ns))) hv
        rw [← hR] at hupd
        have hnewip : ns = "In Progress" := by rw [← hupd.1]; exact hipr
        have henf2 := henf hnewip
        rw [enforce_single_in_progress, get_first_in_progress] at henf2
        cases hf : (tasksAll.map Prod.snd).find?
            (fun x => x.owner == owner && x.status == "In Progress") with
        | none =>
            have hnone := List.find?_eq_none.mp hf
            have hzero : (tasksAll.map Prod.snd).countP
                (fun x => x.owner == o && x.status == "In Progress") = 0 := by
              rw [List.countP_eq_zero]
              intro x hx
              have := hnone x hx
              rw [← ho]
              simpa using this
            rw [hzero] at hkey
            rw [if_pos hp2] at hkey
            omega
        | some ip =>
            rw [hf] at henf2
            have hipt : ip = t := by simpa using henf2
            have hippred := List.find?_some hf
            have hpt : (t.owner == o && t.status == "In Progress") = true := by
              rw [← hipt, ← ho]
              simpa using hippred
            rw [if_pos hpt, if_pos hp2] at hkey
            omega
      · have hinv := update_status_invalid t ns now comment
          (some (label.getD ("Move -> " ++ ns))) hv
        rw [← hR] at hinv
        have hpt : (t.owner == o && t.status == "In Progress") = true := by
          have h2 : t.status = "In Progress" := by rw [← hinv.1]; exact hipr
          simp [hto, h2]
        rw [if_pos hpt, if_pos hp2] at hkey
        omega
    · rw [if_neg hp2] at hkey
      by_cases hpt : (t.owner == o && t.status == "In Progress") = true
      · rw [if_pos hpt] at hkey
        omega
      · rw [if_neg hpt] at hkey
        omega

/-- **C4**: a request to move a task into `In Progress` is refused with no
change whenever the task is blocked or its owner already has a different
task `In Progress`; and every call of `move_task_to_status` preserves the
at-most-one-`In Progress`-task-per-owner invariant. -/
theorem c4_inprogress_guards :
    (∀ (tasksAll : List (String × Task)) (t : Task) (owner : String)
        (now : Int) (comment : Option String) (label : Option String),
        findTask tasksAll t.taskId = some t →
        SingleActive tasksAll →
        (is_blocked t tasksAll = true ∨
          ∃ t2 ∈ tasksAll.map Prod.snd,
            t2.owner = t.owner ∧ t2.status = "In Progress" ∧ t2 ≠ t) →
        move_task_to_status tasksAll t "In Progress" owner now comment label
          = (tasksAll, false)) ∧
    (∀ (tasksAll : List (String × Task)) (t : Task) (newStatus owner : String)
        (now : Int) (comment : Option String) (label : Option String),
        (tasksAll.map Prod.fst).Nodup →
        findTask tasksAll t.taskId = some t →
        SingleActive tasksAll →
        SingleActive
          (move_task_to_status tasksAll t newStatus owner now comment
            label).1) :=
  ⟨fun tasksAll t owner now comment label hfind hsingle hreason =>
      move_refused_of_blocked_or_busy tasksAll t owner now comment label
        hfind hsingle hreason,
   fun tasksAll t newStatus owner now comment label hnd hfind hsingle =>
      move_preserves_single_active tasksAll t newStatus owner now comment
        label hnd hfind hsingle⟩

/-- Witness for C4: the busy-owner refusal and invariant preservation on a
concrete two-task board. -/
theorem c4_inprogress_guards_witness :
    move_task_to_status [("T1", activeTask),
        ("T2", { sampleTask with taskId := "T2" })]
      { sampleTask with taskId := "T2" } "In Progress" "O" 0 none none
      = ([("T1", activeTask), ("T2", { sampleTask with taskId := "T2" })],
          false) ∧
    SingleActive
      (move_task_to_status [("T1", activeTask),
          ("T2", { sampleTask with taskId := "T2" })]
        activeTask "Paused" "O" 0 none none).1 := by
  have hsingle : SingleActive
      [("T1", activeTask), ("T2", { sampleTask with taskId := "T2" })] := by
    intro o
    by_cases h : "O" = o <;>
      simp [ipCount, activeTask, sampleTask, h]
  constructor
  · exact c4_inprogress_guards.1 _ _ "O" 0 none none (by decide) hsingle
      (Or.inr ⟨activeTask, by decide, by decide, by decide, by decide⟩)
  · exact c4_inprogress_guards.2 _ _ "Paused" "O" 0 none none (by decide)
      (by decide) hsingle

/-! ## C9 — progress aggregation -/

/-- A member of a four-task milestone used by the C9 witness. -/
def milestoneTask (id st : String) : Task :=
  { sampleTask with taskId := id, status := st }

/-- Four tasks, one `Completed`, in one project/milestone. -/
def tasks4 : List (String × Task) :=
  [("A", milestoneTask "A" "Completed"), ("B", milestoneTask "B" "Pending"),
   ("C", milestoneTask "C" "Pending"), ("D", milestoneTask "D" "In Progress")]

/-- **C9**: the aggregator returns
`round(100 × count(Status == Completed in scope) / count(scope))` over the
tasks of all owners (there is no owner filter in the computation), and
returns `0` without raising whenever the scope is empty. -/
theorem c9_progress_aggregation (tasksAll : List (String × Task))
    (project milestone : Option String) :
    ((tasksAll.map Prod.snd).countP (scopeKeep project milestone) = 0 →
      calc_progress_all tasksAll project milestone = 0) ∧
    (0 < (tasksAll.map Prod.snd).countP (scopeKeep project milestone) →
      calc_progress_all tasksAll project milestone
        = roundHalfEven
            ((100 * ((tasksAll.map Prod.snd).countP
                (fun t => t.status == "Completed"
                  && scopeKeep project milestone t)) : ℚ) /
              ((tasksAll.map Prod.snd).countP
                (scopeKeep project milestone)))) := by
  constructor
  · intro h0
    rw [calc_progress_all]
    have hempty : (tasksAll.map Prod.snd).filter
        (scopeKeep project milestone) = [] := by
      rw [← List.length_eq_zero, ← List.countP_eq_length_filter]
      exact h0
    simp [hempty]
  · intro hpos
    rw [calc_progress_all]
    have hlen : ((tasksAll.map Prod.snd).filter
        (scopeKeep project milestone)).length
        = (tasksAll.map Prod.snd).countP (scopeKeep project milestone) :=
      (List.countP_eq_length_filter _ _).symm
    have hne : ((tasksAll.map Prod.snd).filter
        (scopeKeep project milestone)).isEmpty = false := by
      rw [List.isEmpty_eq_false_iff_exists_mem]
      have : 0 < ((tasksAll.map Prod.snd).filter
          (scopeKeep project milestone)).length := by omega
      rcases List.exists_mem_of_length_pos this with ⟨a, ha⟩
      exact ⟨a, ha⟩
    simp only [hne, Bool.false_eq_true, if_false]
    rw [List.countP_filter, hlen]
    congr 1
    ring

/-- Witness for C9: four tasks with one completed give 25; an empty scope
gives 0. -/
theorem c9_progress_aggregation_witness :
    calc_progress_all tasks4 (some "P") (some "M")
      = roundHalfEven
          ((100 * ((tasks4.map Prod.snd).countP
              (fun t => t.status == "Completed"
                && scopeKeep (some "P") (some "M") t)) : ℚ) /
            ((tasks4.map Prod.snd).countP
              (scopeKeep (some "P") (some "M")))) ∧
    calc_progress_all tasks4 (some "P") (some "M") = 25 ∧
    calc_progress_all [] (some "P") (some "M") = 0 :=
  ⟨(c9_progress_aggregation tasks4 (some "P") (some "M")).2 (by decide),
   by
    have h1 : ((tasks4.map Prod.snd).filter
        (scopeKeep (some "P") (some "M"))).length = 4 := by decide
    have h2 : ((tasks4.map Prod.snd).filter
        (scopeKeep (some "P") (some "M"))).countP
        (fun t => t.status == "Completed") = 1 := by decide
    have h3 : ((tasks4.map Prod.snd).filter
        (scopeKeep (some "P") (some "M"))).isEmpty = false := by decide
    rw [calc_progress_all]
    simp only [h1, h2, h3, Bool.false_eq_true, if_false]
    norm_num [roundHalfEven],
   (c9_progress_aggregation [] (some "P") (some "M")).1 (by decide)⟩

/-! ## Dependency graph resolver (`topological_sort`)

Kahn's algorithm with a priority-sorted ready frontier, exactly as in the
source: each iteration stably sorts the current deque by priority rank,
emits the first element, removes it from the deque and decrements the
in-degrees of its dependents, enqueueing those that reach zero.  The
`while queue` loop is driven by fuel equal to the task count, which the
invariants below show is never exhausted while the queue is nonempty. -/

/-- `PRIORITY_ORDER` lookup with default 99. -/
def prioRank (p : String) : ℕ :=
  if p = "High" then 1
  else if p = "Medium" then 2
  else if p = "Low" then 3
  else 99

/-- Rank of a ready task id (ids on the queue always exist in the map). -/
def rankOf (tasksAll : List (String × Task)) (tid : String) : ℕ :=
  match findTask tasksAll tid with
  | some t => prioRank t.priority
  | none => 99

/-- Stable insertion before the first element of larger key. -/
def insertByKey (key : String → ℕ) (x : String) :
    List String → List String
  | [] => [x]
  | y :: ys =>
      if key y < key x then y :: insertByKey key x ys else x :: y :: ys

/-- Stable ascending sort by key (Python `sorted(..., key=...)`). -/
def sortByKey (key : String → ℕ) : List String → List String
  | [] => []
  | x :: xs => insertByKey key x (sortByKey key xs)

/-- First element attaining the minimal key; the head of a stable sort. -/
def pickFirstMin (key : String → ℕ) : List String → Option String
  | [] => none
  | x :: xs =>
      match pickFirstMin key xs with
      | none => some x
      | some y => some (if key y < key x then y else x)

/-- Dependents multigraph: `graphOf tasks d` lists, in task order, one copy
of `tid` per occurrence of `d` in `tid`'s dependency list (the transposed
view of the `graph[dep].append(task_id)` loop). -/
def graphOf (tasksAll : List (String × Task)) (d : String) : List String :=
  match tasksAll with
  | [] => []
  | p :: rest =>
      (p.2.dependsOn.filter (fun x => x == d)).map (fun _ => p.1)
        ++ graphOf rest d

/-- Initial in-degree: the number of dependencies (after the dangling
check has passed); zero for unknown ids (`defaultdict(int)`). -/
def inDeg0 (tasksAll : List (String × Task)) (tid : String) : ℤ :=
  match findTask tasksAll tid with
  | some t => t.dependsOn.length
  | none => 0

/-- The seed frontier: ids of in-degree zero, in insertion order. -/
def initQueue (tasksAll : List (String × Task)) : List String :=
  (tasksAll.map Prod.fst).filter (fun tid => inDeg0 tasksAll tid = 0)

/-- `for neighbor in graph[current]: in_degree[neighbor] -= 1; ...`. -/
def processNeighbors :
    List String → (String → ℤ) → List String → (String → ℤ) × List String
  | [], inDeg, queue => (inDeg, queue)
  | n :: ns, inDeg, queue =>
      let inDeg2 := fun x => if x = n then inDeg n - 1 else inDeg x
      let queue2 := if inDeg n - 1 = 0 then queue ++ [n] else queue
      processNeighbors ns inDeg2 queue2

/-- The `while queue` loop of `topological_sort`. -/
def kahnLoop (tasksAll : List (String × Task)) (graph : String → List String) :
    ℕ → (String → ℤ) → List String → List String → List String
  | 0, _, _, ordered => ordered
  | fuel + 1, inDeg, queue, ordered =>
      match queue with
      | [] => ordered
      | q :: qs =>
          let current := (sortByKey (rankOf tasksAll) (q :: qs)).headD q
          let queue2 := (q :: qs).erase current
          let pn := processNeighbors (graph current) inDeg queue2
          kahnLoop tasksAll graph fuel pn.1 pn.2 (ordered ++ [current])

/-- The first dangling reference `(task_id, dep)` in iteration order. -/
def findDangling (tasksAll : List (String × Task)) :
    Option (String × String) :=
  tasksAll.findSome? (fun p =>
    (p.2.dependsOn.find? (fun d => d ∉ tasksAll.map Prod.fst)).map
      (fun d => (p.1, d)))

/-- The data carried by the resolver's `ValueError` messages. -/
inductive TopoError where
  | dangling (taskId dep : String)
  | cycle (unresolved : List String)
deriving DecidableEq

deriving instance DecidableEq for Except

/-- Lexicographic comparison of strings by code point, as Python compares
strings (written out over the character lists so that it evaluates). -/
def strLtChars : List Char → List Char → Bool
  | _, [] => false
  | [], _ :: _ => true
  | a :: as, b :: bs =>
      if a.val < b.val then true
      else if b.val < a.val then false
      else strLtChars as bs

/-- String comparison used by `sorted(...)`. -/
def strLt (a b : String) : Bool := strLtChars a.data b.data

/-- Ascending insertion for `sorted(...)` on strings. -/
def insertStr (x : String) : List String → List String
  | [] => [x]
  | y :: ys => if strLt y x then y :: insertStr x ys else x :: y :: ys

/-- Python `sorted` on a list of strings. -/
def sortStrings : List String → List String
  | [] => []
  | x :: xs => insertStr x (sortStrings xs)

/-- The emitted order (`ordered_ids` at the end of the loop). -/
def kahnOrder (tasksAll : List (String × Task)) : List String :=
  kahnLoop tasksAll (graphOf tasksAll) tasksAll.length (inDeg0 tasksAll)
    (initQueue tasksAll) []

/-- `topological_sort`: dangling check, Kahn loop, cycle check. -/
def topological_sort (tasksAll : List (String × Task)) :
    Except TopoError (List String) :=
  match findDangling tasksAll with
  | some pr => .error (.dangling pr.1 pr.2)
  | none =>
      let ordered := kahnOrder tasksAll
      if ordered.length ≠ tasksAll.length then
        .error (.cycle (sortStrings
          ((tasksAll.map Prod.fst).filter (fun x => x ∉ ordered))))
      else .ok ordered

/-- `a` depends on `b` (one edge of the dependency graph). -/
def DependsEdge (tasksAll : List (String × Task)) (a b : String) : Prop :=
  b ∈ depsOf tasksAll a

/-- A directed dependency cycle: consecutive elements are edges, and the
last element depends on the first. -/
def IsCycle (tasksAll : List (String × Task)) (c : List String) : Prop :=
  c.Chain' (DependsEdge tasksAll) ∧
  ∃ a b, c.head? = some a ∧ c.getLast? = some b ∧ DependsEdge tasksAll b a

/-! ## Stable-sort lemmas: the selected task is the earliest-enqueued
element of minimal rank -/

theorem insertByKey_perm (key : String → ℕ) (x : String) (l : List String) :
    (insertByKey key x l).Perm (x :: l) := by
  induction l with
  | nil => exact List.Perm.refl _
  | cons y ys ih =>
      rw [insertByKey]
      split_ifs
      · exact ((ih.cons y).trans (List.Perm.swap x y ys))
      · exact List.Perm.refl _

theorem sortByKey_perm (key : String → ℕ) (l : List String) :
    (sortByKey key l).Perm l := by
  induction l with
  | nil => exact List.Perm.refl _
  | cons x xs ih =>
      exact (insertByKey_perm key x (sortByKey key xs)).trans (ih.cons x)

theorem head?_sortByKey (key : String → ℕ) (l : List String) :
    (sortByKey key l).head? = pickFirstMin key l := by
  induction l with
  | nil => rfl
  | cons x xs ih =>
      rw [sortByKey, pickFirstMin]
      cases hs : sortByKey key xs with
      | nil =>
          have hxs : xs = [] := by
            have := (sortByKey_perm key xs).length_eq
            rw [hs] at this
            exact List.length_eq_zero.mp this.symm
          subst hxs
          simp [pickFirstMin, insertByKey]
      | cons y ys =>
          rw [hs] at ih
          rw [← ih]
          rw [insertByKey]
          split_ifs with h
          · simp [h]
          · simp [h]

theorem pickFirstMin_ne_none (key : String → ℕ) (x : String)
    (xs : List String) : pickFirstMin key (x :: xs) ≠ none := by
  rw [pickFirstMin]
  cases pickFirstMin key xs <;> simp

theorem pickFirstMin_spec (key : String → ℕ) :
    ∀ (l : List String) (m : String), pickFirstMin key l = some m →
      ∃ l1 l2, l = l1 ++ m :: l2 ∧ (∀ e ∈ l1, key m < key e) ∧
        ∀ e ∈ l, key m ≤ key e := by
  intro l
  induction l with
  | nil => intro m h; cases h
  | cons x xs ih =>
      intro m h
      rw [pickFirstMin] at h
      cases hx : pickFirstMin key xs with
      | none =>
          have hxs : xs = [] := by
            cases xs with
            | nil => rfl
            | cons a as => exact absurd hx (pickFirstMin_ne_none key a as)
          subst hxs
          have hxm : x = m := by simpa [pickFirstMin] using h
          subst hxm
          exact ⟨[], [], rfl, by simp, by simp⟩
      | some y =>
          rw [hx] at h
          simp only [Option.some_inj] at h
          rcases ih y hx with ⟨l1, l2, hdecomp, hlt, hmin⟩
          by_cases hk : key y < key x
          · rw [if_pos hk] at h
            subst h
            refine ⟨x :: l1, l2, by rw [hdecomp]; rfl, ?_, ?_⟩
            · intro e he
              rcases List.mem_cons.mp he with rfl | he2
              · exact hk
              · exact hlt e he2
            · intro e he
              rcases List.mem_cons.mp he with rfl | he2
              · exact le_of_lt hk
              · exact hmin e he2
          · rw [if_neg hk] at h
            subst h
            refine ⟨[], xs, rfl, by simp, ?_⟩
            intro e he
            rcases List.mem_cons.mp he with rfl | he2
            · exact le_refl _
            · exact le_trans (not_lt.mp hk) (hmin e he2)

theorem select_spec (key : String → ℕ) (q : String) (qs : List String) :
    ∃ l1 l2, q :: qs = l1 ++ ((sortByKey key (q :: qs)).headD q) :: l2 ∧
      (∀ e ∈ l1, key ((sortByKey key (q :: qs)).headD q) < key e) ∧
      ∀ e ∈ q :: qs, key ((sortByKey key (q :: qs)).headD q) ≤ key e := by
  cases hp : pickFirstMin key (q :: qs) with
  | none => exact absurd hp (pickFirstMin_ne_none key q qs)
  | some m =>
      have hhead : (sortByKey key (q :: qs)).headD q = m := by
        rw [List.headD_eq_head?_getD, head?_sortByKey, hp]
        rfl
      rw [hhead]
      exact pickFirstMin_spec key (q :: qs) m hp


/-- **C10**: the resolver is a pure function of the task map (two runs on
equal inputs are definitionally the same run), and at each loop step the
element it emits from the frontier `q :: qs` — the head of the stable sort
by priority rank — is the earliest-enqueued element of minimal rank: every
element strictly before it in the queue has strictly larger rank and no
element anywhere in the queue has smaller rank. -/
theorem c10_stable_selection (tasksAll : List (String × Task)) (q : String)
    (qs : List String) :
    ∃ l1 l2,
      q :: qs = l1 ++ ((sortByKey (rankOf tasksAll) (q :: qs)).headD q) :: l2 ∧
      (∀ e ∈ l1, rankOf tasksAll
          ((sortByKey (rankOf tasksAll) (q :: qs)).headD q)
            < rankOf tasksAll e) ∧
      ∀ e ∈ q :: qs, rankOf tasksAll
          ((sortByKey (rankOf tasksAll) (q :: qs)).headD q)
            ≤ rankOf tasksAll e :=
  select_spec (rankOf tasksAll) q qs


theorem findTask_eq_none (tasksAll : List (String × Task)) (k : String) :
    findTask tasksAll k = none ↔ k ∉ tasksAll.map Prod.fst := by
  induction tasksAll with
  | nil => simp [findTask]
  | cons p rest ih =>
      by_cases hp : p.1 = k
      · simp [findTask, List.find?, hp]
      · have heq : findTask (p :: rest) k = findTask rest k := by
          simp [findTask, List.find?, hp]
        rw [heq, ih, List.map_cons]
        simp only [List.mem_cons, not_or]
        constructor
        · intro h
          exact ⟨fun hc => hp hc.symm, h⟩
        · intro h
          exact h.2

theorem findTask_of_mem_nodup (tasksAll : List (String × Task)) (k : String)
    (v : Task) (hnd : (tasksAll.map Prod.fst).Nodup)
    (hmem : (k, v) ∈ tasksAll) : findTask tasksAll k = some v := by
  induction tasksAll with
  | nil => cases hmem
  | cons p rest ih =>
      simp only [List.map_cons, List.nodup_cons] at hnd
      rcases List.mem_cons.mp hmem with rfl | hmem2
      · simp [findTask, List.find?]
      · have hp : ¬ p.1 = k := by
          intro h
          apply hnd.1
          rw [h]
          exact List.mem_map.mpr ⟨(k, v), hmem2, rfl⟩
        have := ih hnd.2 hmem2
        simpa [findTask, List.find?, hp] using this

theorem depsOf_eq (tasksAll : List (String × Task)) (k : String) (v : Task)
    (hnd : (tasksAll.map Prod.fst).Nodup) (hmem : (k, v) ∈ tasksAll) :
    depsOf tasksAll k = v.dependsOn := by
  rw [depsOf, findTask_of_mem_nodup tasksAll k v hnd hmem]

theorem mem_ids_of_depsOf_ne_nil (tasksAll : List (String × Task))
    (x : String) (h : depsOf tasksAll x ≠ []) :
    x ∈ tasksAll.map Prod.fst := by
  rw [depsOf] at h
  cases hf : findTask tasksAll x with
  | none => rw [hf] at h; exact absurd rfl h
  | some t =>
      have := findTask_mem hf
      exact List.mem_map.mpr ⟨(x, t), this, rfl⟩

theorem graphOf_sub (tasksAll : List (String × Task)) (d y : String)
    (h : y ∈ graphOf tasksAll d) : y ∈ tasksAll.map Prod.fst := by
  induction tasksAll with
  | nil => cases h
  | cons p rest ih =>
      rw [graphOf] at h
      rcases List.mem_append.mp h with h1 | h2
      · rcases List.mem_map.mp h1 with ⟨a, _, rfl⟩
        simp
      · simp [ih h2]

theorem count_graphOf (tasksAll : List (String × Task)) (d tid : String)
    (hnd : (tasksAll.map Prod.fst).Nodup) :
    (graphOf tasksAll d).count tid = (depsOf tasksAll tid).count d := by
  induction tasksAll with
  | nil => simp [graphOf, depsOf, findTask]
  | cons p rest ih =>
      simp only [List.map_cons, List.nodup_cons] at hnd
      rw [graphOf, List.count_append]
      have hmap : (p.2.dependsOn.filter (fun x => x == d)).map
          (fun _ => p.1) = List.replicate
            (p.2.dependsOn.filter (fun x => x == d)).length p.1 :=
        List.map_const _ _
      rw [hmap, List.count_replicate]
      by_cases hp : p.1 = tid
      · subst hp
        have hnone : findTask rest p.1 = none :=
          (findTask_eq_none rest p.1).mpr hnd.1
        have hdeps : depsOf (p :: rest) p.1 = p.2.dependsOn := by
          rw [depsOf, findTask]
          simp [List.find?]
        have hzero : (depsOf rest p.1).count d = 0 := by
          rw [depsOf, hnone]
          rfl
        rw [ih hnd.2, hzero, hdeps]
        simp [List.count_eq_countP, List.countP_eq_length_filter]
      · have hdeps : depsOf (p :: rest) tid = depsOf rest tid := by
          rw [depsOf, depsOf, findTask, findTask]
          simp [List.find?, hp]
        rw [ih hnd.2, hdeps, if_neg (by simp [hp]), zero_add]

theorem processNeighbors_spec :
    ∀ (L : List String) (inDeg : String → ℤ) (queue : List String),
      (∀ x, (L.count x : ℤ) ≤ inDeg x) →
      (∀ x, 0 < L.count x → x ∉ queue) →
      queue.Nodup →
      (∀ x, (processNeighbors L inDeg queue).1 x = inDeg x - L.count x) ∧
      (∀ x, x ∈ (processNeighbors L inDeg queue).2 ↔
        x ∈ queue ∨ (x ∈ L ∧ inDeg x = L.count x)) ∧
      (processNeighbors L inDeg queue).2.Nodup ∧
      (∀ x, x ∈ (processNeighbors L inDeg queue).2 → x ∈ queue ∨ x ∈ L) := by
  intro L
  induction L with
  | nil =>
      intro inDeg queue hcnt hq hnd
      refine ⟨fun x => by simp [processNeighbors], fun x => ?_, hnd, ?_⟩
      · simp [processNeighbors]
      · intro x hx
        simp only [processNeighbors] at hx
        exact Or.inl hx
  | cons n ns ih =>
      intro inDeg queue hcnt hq hnd
      rw [processNeighbors]
      set inDeg2 := fun x => if x = n then inDeg n - 1 else inDeg x with hd2
      set queue2 := if inDeg n - 1 = 0 then queue ++ [n] else queue with hq2
      have hnq : n ∉ queue := hq n (by rw [List.count_cons_self]; omega)
      have hcnt2 : ∀ x, (ns.count x : ℤ) ≤ inDeg2 x := by
        intro x
        by_cases hx : x = n
        · subst hx
          have := hcnt x
          rw [List.count_cons_self] at this
          simp only [hd2, if_pos rfl]
          push_cast at this ⊢
          omega
        · have := hcnt x
          rw [List.count_cons_of_ne hx] at this
          simpa [hd2, hx] using this
      have hq2mem : ∀ x, x ∈ queue2 ↔ x ∈ queue ∨ (x = n ∧ inDeg n - 1 = 0) := by
        intro x
        rw [hq2]
        split_ifs with hz
        · simp [hz]
        · simp [hz]
      have hqq2 : ∀ x, 0 < ns.count x → x ∉ queue2 := by
        intro x hx
        rw [hq2mem]
        push_neg
        by_cases hxn : x = n
        · subst hxn
          constructor
          · exact hq x (by rw [List.count_cons_self]; omega)
          · intro _ hzero
            have h2 := hcnt2 x
            simp only [hd2, if_pos rfl] at h2
            omega
        · constructor
          · exact hq x (by rw [List.count_cons_of_ne hxn]; omega)
          · intro h
            exact absurd h hxn
      have hnd2 : queue2.Nodup := by
        rw [hq2]
        split_ifs with hz
        · rw [List.nodup_append]
          exact ⟨hnd, List.nodup_singleton n, by
            intro a ha hb
            simp only [List.mem_singleton] at hb
            subst hb
            exact hnq ha⟩
        · exact hnd
      rcases ih inDeg2 queue2 hcnt2 hqq2 hnd2 with ⟨ih1, ih2, ih3, ih4⟩
      refine ⟨?_, ?_, ih3, ?_⟩
      · intro x
        rw [ih1 x]
        by_cases hx : x = n
        · subst hx
          rw [hd2]
          simp only [if_pos rfl, List.count_cons_self]
          push_cast
          omega
        · rw [hd2]
          simp only [if_neg hx]
          rw [List.count_cons_of_ne hx]
      · intro x
        rw [ih2 x, hq2mem x]
        by_cases hx : x = n
        · subst hx
          have hdegeq : inDeg2 x = inDeg x - 1 := by simp [hd2]
          have hmemx : x ∈ x :: ns := List.mem_cons_self x ns
          have hns_le : (ns.count x : ℤ) ≤ inDeg x - 1 := by
            have h2 := hcnt2 x
            rwa [hdegeq] at h2
          constructor
          · rintro ((h | ⟨_, hz⟩) | ⟨hmem, hdeg⟩)
            · exact Or.inl h
            · right
              refine ⟨hmemx, ?_⟩
              rw [List.count_cons_self]
              push_cast
              omega
            · right
              refine ⟨hmemx, ?_⟩
              rw [hdegeq] at hdeg
              rw [List.count_cons_self]
              push_cast at hdeg ⊢
              omega
          · rintro (h | ⟨_, hdeg⟩)
            · exact Or.inl (Or.inl h)
            · rw [List.count_cons_self] at hdeg
              push_cast at hdeg
              by_cases hns : 0 < ns.count x
              · right
                have hmemns : x ∈ ns := by
                  by_contra hc
                  rw [List.count_eq_zero_of_not_mem hc] at hns
                  omega
                refine ⟨hmemns, ?_⟩
                rw [hdegeq]
                push_cast
                omega
              · exact Or.inl (Or.inr ⟨rfl, by omega⟩)
        · have hdegeq : inDeg2 x = inDeg x := by simp [hd2, hx]
          rw [hdegeq, List.count_cons_of_ne hx]
          constructor
          · rintro ((h | ⟨hn, _⟩) | ⟨hmem, hdeg⟩)
            · exact Or.inl h
            · exact absurd hn hx
            · exact Or.inr ⟨List.mem_cons_of_mem n hmem, hdeg⟩
          · rintro (h | ⟨hmem, hdeg⟩)
            · exact Or.inl (Or.inl h)
            · rcases List.mem_cons.mp hmem with h1 | h2
              · exact absurd h1 hx
              · exact Or.inr ⟨h2, hdeg⟩
      · intro x hx
        rcases ih4 x hx with h | h
        · rw [hq2mem x] at h
          rcases h with h | ⟨rfl, _⟩
          · exact Or.inl h
          · exact Or.inr (by simp)
        · exact Or.inr (List.mem_cons_of_mem n h)

theorem count_le_countP (l : List String) (a : String) (p : String → Bool)
    (hpa : p a = true) : l.count a ≤ l.countP p := by
  rw [List.count]
  apply List.countP_mono_left
  intro x _ hx
  have hxa : x = a := by simpa using hx
  subst hxa
  exact hpa

theorem countP_concat_not_mem (o : List String) (c : String) (hc : c ∉ o) :
    ∀ l : List String,
      (l.countP (fun d => d ∉ o ++ [c]) : ℤ)
        = l.countP (fun d => d ∉ o) - l.count c := by
  intro l
  induction l with
  | nil => simp
  | cons e l ih =>
      rw [List.countP_cons, List.countP_cons, List.count_cons]
      push_cast
      rw [ih]
      by_cases hec : e = c
      · subst hec
        simp [hc]
      · simp only [List.mem_append, List.mem_singleton, hec]
        by_cases heo : e ∈ o <;> simp [heo, hec] <;> omega

structure KahnState (tasks : List (String × Task)) (inDeg : String → ℤ)
    (queue ordered : List String) : Prop where
  ordNodup : ordered.Nodup
  ordSub : ∀ x ∈ ordered, x ∈ tasks.map Prod.fst
  qNodup : queue.Nodup
  qSub : ∀ x ∈ queue, x ∈ tasks.map Prod.fst
  qDisj : ∀ x ∈ queue, x ∉ ordered
  degNonneg : ∀ x, 0 ≤ inDeg x
  degEq : ∀ x ∈ tasks.map Prod.fst,
    inDeg x = ((depsOf tasks x).countP (fun d => d ∉ ordered) : ℤ)
  qMem : ∀ x ∈ tasks.map Prod.fst,
    (x ∈ queue ↔
      x ∉ ordered ∧ (depsOf tasks x).countP (fun d => d ∉ ordered) = 0)
  topo : ∀ x ∈ ordered, ∀ d ∈ depsOf tasks x,
    ∃ l1 l2, ordered = l1 ++ x :: l2 ∧ d ∈ l1

theorem kahnStep (tasks : List (String × Task))
    (hkeys : (tasks.map Prod.fst).Nodup) (inDeg : String → ℤ)
    (queue ordered : List String) (current : String)
    (hinv : KahnState tasks inDeg queue ordered) (hcur : current ∈ queue) :
    KahnState tasks
      (processNeighbors (graphOf tasks current) inDeg
        (queue.erase current)).1
      (processNeighbors (graphOf tasks current) inDeg
        (queue.erase current)).2
      (ordered ++ [current]) := by
  have hcno : current ∉ ordered := hinv.qDisj current hcur
  have hcids : current ∈ tasks.map Prod.fst := hinv.qSub current hcur
  have hc0 : (depsOf tasks current).countP (fun d => d ∉ ordered) = 0 :=
    ((hinv.qMem current hcids).mp hcur).2
  have hq2mem : ∀ x, x ∈ queue.erase current ↔ x ≠ current ∧ x ∈ queue :=
    fun x => hinv.qNodup.mem_erase_iff
  have hq2nd : (queue.erase current).Nodup := hinv.qNodup.erase current
  have hgc : ∀ x, (graphOf tasks current).count x
      = (depsOf tasks x).count current :=
    fun x => count_graphOf tasks current x hkeys
  have hBA : ∀ x ∈ tasks.map Prod.fst,
      (depsOf tasks x).count current
        ≤ (depsOf tasks x).countP (fun d => d ∉ ordered) := by
    intro x _
    exact count_le_countP _ current _ (by simpa using hcno)
  have hcnt : ∀ x, ((graphOf tasks current).count x : ℤ) ≤ inDeg x := by
    intro x
    rw [hgc x]
    by_cases hx : x ∈ tasks.map Prod.fst
    · rw [hinv.degEq x hx]
      exact_mod_cast hBA x hx
    · have hnil : depsOf tasks x = [] := by
        by_contra h
        exact hx (mem_ids_of_depsOf_ne_nil tasks x h)
      rw [hnil]
      simpa using hinv.degNonneg x
  have hqpn : ∀ x, 0 < (graphOf tasks current).count x →
      x ∉ queue.erase current := by
    intro x hx hmem
    rw [hgc x] at hx
    have hxq : x ∈ queue := List.mem_of_mem_erase hmem
    have hxids := hinv.qSub x hxq
    have hxz := ((hinv.qMem x hxids).mp hxq).2
    have hcd : current ∈ depsOf tasks x := by
      by_contra hcd
      rw [List.count_eq_zero_of_not_mem hcd] at hx
      omega
    have : 0 < (depsOf tasks x).countP (fun d => d ∉ ordered) :=
      List.countP_pos.mpr ⟨current, hcd, by simpa using hcno⟩
    omega
  rcases processNeighbors_spec (graphOf tasks current) inDeg
    (queue.erase current) hcnt hqpn hq2nd with ⟨pn1, pn2, pn3, pn4⟩
  have hgmem : ∀ x, x ∈ graphOf tasks current ↔
      0 < (depsOf tasks x).count current := by
    intro x
    rw [← hgc x]
    exact List.count_pos_iff.symm
  have hnotord : ∀ x, 0 < (depsOf tasks x).count current → x ∉ ordered := by
    intro x hx hxo
    have hcd : current ∈ depsOf tasks x := by
      by_contra hcd
      rw [List.count_eq_zero_of_not_mem hcd] at hx
      omega
    rcases hinv.topo x hxo current hcd with ⟨l1, l2, hdec, hl1⟩
    apply hcno
    rw [hdec]
    exact List.mem_append.mpr (Or.inl hl1)
  have hnotcur : ∀ x, 0 < (depsOf tasks x).count current → x ≠ current := by
    intro x hx heq
    have hcd : current ∈ depsOf tasks x := by
      by_contra hcd
      rw [List.count_eq_zero_of_not_mem hcd] at hx
      omega
    have hpos : 0 < (depsOf tasks x).countP (fun d => d ∉ ordered) :=
      List.countP_pos.mpr ⟨current, hcd, by simpa using hcno⟩
    rw [heq, hc0] at hpos
    exact lt_irrefl 0 hpos
  refine ⟨?_, ?_, pn3, ?_, ?_, ?_, ?_, ?_, ?_⟩
  · rw [List.nodup_append]
    exact ⟨hinv.ordNodup, List.nodup_singleton current, by
      intro a ha hb
      rw [List.mem_singleton] at hb
      subst hb
      exact hcno ha⟩
  · intro x hx
    rcases List.mem_append.mp hx with h | h
    · exact hinv.ordSub x h
    · rw [List.mem_singleton] at h
      subst h
      exact hcids
  · intro x hx
    rcases pn4 x hx with h | h
    · exact hinv.qSub x (List.mem_of_mem_erase h)
    · exact graphOf_sub tasks current x h
  · intro x hx
    rw [pn2 x] at hx
    have hxno : x ∉ ordered ∧ x ≠ current := by
      rcases hx with h | ⟨hg, _⟩
      · rcases (hq2mem x).mp h with ⟨hne, hq⟩
        exact ⟨hinv.qDisj x hq, hne⟩
      · have hb := (hgmem x).mp hg
        exact ⟨hnotord x hb, hnotcur x hb⟩
    intro hmem
    rcases List.mem_append.mp hmem with h | h
    · exact hxno.1 h
    · rw [List.mem_singleton] at h
      exact hxno.2 h
  · intro x
    rw [pn1 x]
    have := hcnt x
    omega
  · intro x hx
    rw [pn1 x, hgc x, hinv.degEq x hx,
      countP_concat_not_mem ordered current hcno (depsOf tasks x)]
  · intro x hx
    rw [pn2 x]
    have hA'B : ((depsOf tasks x).countP (fun d => d ∉ ordered ++ [current])
          : ℤ)
        = ((depsOf tasks x).countP (fun d => d ∉ ordered) : ℤ)
          - (depsOf tasks x).count current :=
      countP_concat_not_mem ordered current hcno (depsOf tasks x)
    have hba := hBA x hx
    constructor
    · rintro (h | ⟨hg, hdeg⟩)
      · rcases (hq2mem x).mp h with ⟨hne, hq⟩
        rcases (hinv.qMem x hx).mp hq with ⟨hno, hz⟩
        refine ⟨?_, ?_⟩
        · intro hmem
          rcases List.mem_append.mp hmem with h2 | h2
          · exact hno h2
          · rw [List.mem_singleton] at h2
            exact hne h2
        · omega
      · have hb := (hgmem x).mp hg
        have hno := hnotord x hb
        have hne := hnotcur x hb
        rw [hgc x, hinv.degEq x hx] at hdeg
        refine ⟨?_, ?_⟩
        · intro hmem
          rcases List.mem_append.mp hmem with h2 | h2
          · exact hno h2
          · rw [List.mem_singleton] at h2
            exact hne h2
        · omega
    · rintro ⟨hno', hz'⟩
      have hno : x ∉ ordered := fun h =>
        hno' (List.mem_append.mpr (Or.inl h))
      have hne : x ≠ current := fun h =>
        hno' (List.mem_append.mpr (Or.inr (by rw [List.mem_singleton, h])))
      by_cases hb : 0 < (depsOf tasks x).count current
      · right
        refine ⟨(hgmem x).mpr hb, ?_⟩
        rw [hgc x, hinv.degEq x hx]
        omega
      · left
        rw [hq2mem x]
        refine ⟨hne, ?_⟩
        rw [hinv.qMem x hx]
        exact ⟨hno, by omega⟩
  · intro x hx d hd
    rcases List.mem_append.mp hx with h | h
    · rcases hinv.topo x h d hd with ⟨l1, l2, hdec, hl1⟩
      exact ⟨l1, l2 ++ [current], by rw [hdec, List.append_assoc]; rfl, hl1⟩
    · rw [List.mem_singleton] at h
      subst h
      refine ⟨ordered, [], rfl, ?_⟩
      have := List.countP_eq_zero.mp hc0 d hd
      simpa using this

theorem ids_subset_of_card (tasks : List (String × Task))
    (ordered : List String) (hnd : ordered.Nodup)
    (hsub : ∀ x ∈ ordered, x ∈ tasks.map Prod.fst)
    (hlen : tasks.length ≤ ordered.length) :
    ∀ x ∈ tasks.map Prod.fst, x ∈ ordered := by
  have hsp : ordered.Subperm (tasks.map Prod.fst) := hnd.subperm hsub
  have hperm : ordered.Perm (tasks.map Prod.fst) :=
    hsp.perm_of_length_le (by simpa using hlen)
  intro x hx
  exact hperm.mem_iff.mpr hx

theorem kahnInit (tasks : List (String × Task))
    (hkeys : (tasks.map Prod.fst).Nodup) :
    KahnState tasks (inDeg0 tasks) (initQueue tasks) [] := by
  have hdeg : ∀ x ∈ tasks.map Prod.fst,
      inDeg0 tasks x
        = ((depsOf tasks x).countP (fun d => d ∉ ([] : List String)) : ℤ) := by
    intro x hx
    cases hf : findTask tasks x with
    | none => exact absurd ((findTask_eq_none tasks x).mp hf) (by simpa using hx)
    | some t =>
        rw [inDeg0, hf, depsOf, hf,
          List.countP_eq_length.mpr (fun a _ => by simp)]
  refine ⟨List.nodup_nil, by simp, ?_, ?_, by simp, ?_, hdeg, ?_, by simp⟩
  · exact hkeys.filter _
  · intro x hx
    exact List.mem_of_mem_filter hx
  · intro x
    rw [inDeg0]
    cases findTask tasks x <;> simp
  · intro x hx
    rw [initQueue, List.mem_filter]
    have := hdeg x hx
    constructor
    · intro h
      have h2 := h.2
      simp only [decide_eq_true_eq] at h2
      exact ⟨by simp, by omega⟩
    · intro h
      exact ⟨hx, by simp only [decide_eq_true_eq]; omega⟩

theorem kahnLoop_spec (tasks : List (String × Task))
    (hkeys : (tasks.map Prod.fst).Nodup) :
    ∀ (fuel : ℕ) (inDeg : String → ℤ) (queue ordered : List String),
      KahnState tasks inDeg queue ordered →
      tasks.length ≤ fuel + ordered.length →
      ∃ tail,
        kahnLoop tasks (graphOf tasks) fuel inDeg queue ordered
          = ordered ++ tail ∧
        (ordered ++ tail).Nodup ∧
        (∀ x ∈ ordered ++ tail, x ∈ tasks.map Prod.fst) ∧
        (∀ x ∈ ordered ++ tail, ∀ d ∈ depsOf tasks x,
          ∃ l1 l2, ordered ++ tail = l1 ++ x :: l2 ∧ d ∈ l1) ∧
        (∀ x ∈ tasks.map Prod.fst, x ∉ ordered ++ tail →
          0 < (depsOf tasks x).countP (fun d => d ∉ ordered ++ tail)) := by
  intro fuel
  induction fuel with
  | zero =>
      intro inDeg queue ordered hinv hfuel
      have hall : ∀ x ∈ tasks.map Prod.fst, x ∈ ordered :=
        ids_subset_of_card tasks ordered hinv.ordNodup hinv.ordSub
          (by omega)
      refine ⟨[], ?_, ?_, ?_, ?_, ?_⟩ <;> rw [List.append_nil]
      · rw [kahnLoop]
      · exact hinv.ordNodup
      · exact hinv.ordSub
      · exact hinv.topo
      · intro x hx hxo
        exact absurd (hall x hx) hxo
  | succ fuel ih =>
      intro inDeg queue ordered hinv hfuel
      cases queue with
      | nil =>
          refine ⟨[], ?_, ?_, ?_, ?_, ?_⟩ <;> rw [List.append_nil]
          · rw [kahnLoop]
          · exact hinv.ordNodup
          · exact hinv.ordSub
          · exact hinv.topo
          · intro x hx hxo
            have := (hinv.qMem x hx).not.mp (by simp)
            rw [not_and_or] at this
            rcases this with h | h
            · exact absurd hxo (by simpa using h)
            · omega
      | cons q qs =>
          obtain ⟨m, hm⟩ : ∃ m, (sortByKey (rankOf tasks) (q :: qs)).headD q
              = m := ⟨_, rfl⟩
          rcases select_spec (rankOf tasks) q qs with ⟨s1, s2, hdec, _, _⟩
          rw [hm] at hdec
          have hcur : m ∈ q :: qs := by
            rw [hdec]
            exact List.mem_append.mpr (Or.inr (List.mem_cons_self _ _))
          have hstep := kahnStep tasks hkeys inDeg (q :: qs) ordered m hinv
            hcur
          have hfuel2 : tasks.length ≤ fuel + (ordered ++ [m]).length := by
            rw [List.length_append, List.length_singleton]
            omega
          rcases ih _ _ _ hstep hfuel2 with ⟨tail2, heq, hnd, hsub, htopo,
            hstuck⟩
          refine ⟨m :: tail2, ?_, ?_, ?_, ?_, ?_⟩
          · rw [kahnLoop]
            show kahnLoop tasks (graphOf tasks) fuel _ _ _ = _
            rw [hm, heq, List.append_assoc]
            rfl
          · rw [← List.singleton_append, ← List.append_assoc]
            exact hnd
          · intro x hx
            apply hsub
            rw [← List.singleton_append, ← List.append_assoc] at hx
            exact hx
          · intro x hx d hd
            rw [← List.singleton_append, ← List.append_assoc] at hx ⊢
            exact htopo x hx d hd
          · intro x hx hxo
            rw [← List.singleton_append, ← List.append_assoc] at hxo ⊢
            exact hstuck x hx hxo

theorem deps_sub (tasks : List (String × Task))
    (hdeps : ∀ p ∈ tasks, ∀ d ∈ p.2.dependsOn, d ∈ tasks.map Prod.fst) :
    ∀ x d, d ∈ depsOf tasks x → d ∈ tasks.map Prod.fst := by
  intro x d hd
  rw [depsOf] at hd
  cases hf : findTask tasks x with
  | none => rw [hf] at hd; cases hd
  | some t =>
      rw [hf] at hd
      exact hdeps (x, t) (findTask_mem hf) d hd

theorem chain_succ_aux (tasks : List (String × Task)) (a0 : String) :
    ∀ (c : List String), c.Chain' (DependsEdge tasks) →
      (∀ b, c.getLast? = some b → DependsEdge tasks b a0) →
      ∀ x ∈ c, ∃ y, (y ∈ c ∨ y = a0) ∧ DependsEdge tasks x y := by
  intro c
  induction c with
  | nil => intro _ _ x hx; cases hx
  | cons hd t iht =>
      intro hch hlast x hx
      cases t with
      | nil =>
          rcases List.mem_singleton.mp hx with rfl
          exact ⟨a0, Or.inr rfl, hlast x rfl⟩
      | cons h2 t2 =>
          rcases List.mem_cons.mp hx with rfl | hx2
          · exact ⟨h2, Or.inl (List.mem_cons_of_mem _ (List.mem_cons_self _ _)),
              (List.chain'_cons.mp hch).1⟩
          · have hlast2 : ∀ b, (h2 :: t2).getLast? = some b →
                DependsEdge tasks b a0 := by
              intro b hb
              apply hlast
              rw [List.getLast?_cons_cons]
              exact hb
            rcases iht (List.chain'_cons.mp hch).2 hlast2 x hx2 with
              ⟨y, hy, he⟩
            refine ⟨y, ?_, he⟩
            rcases hy with h | h
            · exact Or.inl (List.mem_cons_of_mem _ h)
            · exact Or.inr h

theorem cycSucc (tasks : List (String × Task)) (c : List String)
    (hc : IsCycle tasks c) : ∀ x ∈ c, ∃ y ∈ c, DependsEdge tasks x y := by
  rcases hc with ⟨hch, a, b, hhead, hlast, hclose⟩
  have hamem : a ∈ c := by
    cases c with
    | nil => cases hhead
    | cons h t =>
        rw [List.head?_cons, Option.some_inj] at hhead
        subst hhead
        exact List.mem_cons_self _ _
  intro x hx
  have hlast2 : ∀ b2, c.getLast? = some b2 → DependsEdge tasks b2 a := by
    intro b2 hb2
    rw [hlast, Option.some_inj] at hb2
    subst hb2
    exact hclose
  rcases chain_succ_aux tasks a c hch hlast2 x hx with ⟨y, hy, he⟩
  rcases hy with h | rfl
  · exact ⟨y, h, he⟩
  · exact ⟨y, hamem, he⟩

theorem indexOf_append_left (d : String) :
    ∀ (l1 r : List String), d ∈ l1 → (l1 ++ r).indexOf d < l1.length := by
  intro l1
  induction l1 with
  | nil => intro r h; cases h
  | cons a t ih =>
      intro r h
      by_cases hda : d = a
      · subst hda
        simp [List.indexOf_cons_self]
      · rcases List.mem_cons.mp h with h1 | h2
        · exact absurd h1 hda
        · rw [List.cons_append,
            List.indexOf_cons_ne (t ++ r) (fun hh => hda hh.symm),
            List.length_cons]
          have := ih r h2
          omega

theorem indexOf_concat_mid (x : String) :
    ∀ (l1 l2 : List String), (l1 ++ x :: l2).Nodup →
      (l1 ++ x :: l2).indexOf x = l1.length := by
  intro l1
  induction l1 with
  | nil => intro l2 _; simp [List.indexOf_cons_self]
  | cons a t ih =>
      intro l2 hnd
      rw [List.cons_append, List.nodup_cons] at hnd
      have hax : ¬ x = a := by
        intro h
        subst h
        exact hnd.1 (List.mem_append.mpr (Or.inr (List.mem_cons_self _ _)))
      rw [List.cons_append,
        List.indexOf_cons_ne (t ++ x :: l2) (fun h => hax h.symm),
        List.length_cons, ih l2 hnd.2]

theorem cycle_not_emitted (tasks : List (String × Task)) (o : List String)
    (hnd : o.Nodup)
    (htopo : ∀ x ∈ o, ∀ d ∈ depsOf tasks x,
      ∃ l1 l2, o = l1 ++ x :: l2 ∧ d ∈ l1)
    (c : List String) (hc : IsCycle tasks c) : ∀ x ∈ c, x ∉ o := by
  have key : ∀ k, ∀ x ∈ c, x ∈ o → o.indexOf x < k → False := by
    intro k
    induction k with
    | zero => intro x _ _ h; omega
    | succ k ihk =>
        intro x hxc hxo hidx
        rcases cycSucc tasks c hc x hxc with ⟨y, hyc, hedge⟩
        rcases htopo x hxo y hedge with ⟨l1, l2, hdec, hyl1⟩
        have hyo : y ∈ o := by
          rw [hdec]
          exact List.mem_append.mpr (Or.inl hyl1)
        have hix : o.indexOf x = l1.length := by
          rw [hdec]
          exact indexOf_concat_mid x l1 l2 (hdec ▸ hnd)
        have hiy : o.indexOf y < l1.length := by
          rw [hdec]
          exact indexOf_append_left y l1 (x :: l2) hyl1
        exact ihk y hyc hyo (by omega)
  intro x hxc hxo
  exact key (o.indexOf x + 1) x hxc hxo (by omega)

theorem build_cycle (tasks : List (String × Task)) (g : ℕ → String)
    (hEdge : ∀ k, DependsEdge tasks (g k) (g (k + 1))) (i j : ℕ)
    (hlt : i < j) (hgij : g i = g j) : ∃ c, IsCycle tasks c := by
  obtain ⟨m, hm⟩ : ∃ m, j - i = m + 1 := ⟨j - i - 1, by omega⟩
  refine ⟨(List.range (m + 1)).map (fun k => g (i + k)), ?_, g i, g (i + m),
    ?_, ?_, ?_⟩
  · rw [List.chain'_map, List.chain'_range_succ]
    intro k _
    have : i + k + 1 = i + (k + 1) := by omega
    rw [← this]
    exact hEdge (i + k)
  · rw [List.range_succ_eq_map]
    simp
  · rw [List.range_succ, List.map_append]
    simp
  · have h1 : i + m + 1 = j := by omega
    have := hEdge (i + m)
    rw [h1, ← hgij] at this
    exact this

theorem cycle_of_stuck (tasks : List (String × Task)) (o : List String)
    (hdeps : ∀ p ∈ tasks, ∀ d ∈ p.2.dependsOn, d ∈ tasks.map Prod.fst)
    (hstuck : ∀ x ∈ tasks.map Prod.fst, x ∉ o →
      0 < (depsOf tasks x).countP (fun d => d ∉ o))
    (x0 : String) (hx0 : x0 ∈ tasks.map Prod.fst) (hx0o : x0 ∉ o) :
    ∃ c, IsCycle tasks c := by
  classical
  set f : String → String :=
    fun x => ((depsOf tasks x).find? (fun d => d ∉ o)).getD x with hf
  have hstep : ∀ x, x ∈ tasks.map Prod.fst → x ∉ o →
      f x ∈ depsOf tasks x ∧ f x ∈ tasks.map Prod.fst ∧ f x ∉ o := by
    intro x hx hxo
    have hpos := hstuck x hx hxo
    rcases List.countP_pos.mp hpos with ⟨d, hd, hdp⟩
    have hfind : ∃ d0, (depsOf tasks x).find? (fun d => d ∉ o)
        = some d0 := by
      cases hfo : (depsOf tasks x).find? (fun d => d ∉ o) with
      | none => exact absurd hdp (by simpa using List.find?_eq_none.mp hfo d hd)
      | some d0 => exact ⟨d0, rfl⟩
    rcases hfind with ⟨d0, hd0⟩
    have hd0mem := List.mem_of_find?_eq_some hd0
    have hd0p := List.find?_some hd0
    have hfx : f x = d0 := by
      rw [hf]
      show ((depsOf tasks x).find? (fun d => d ∉ o)).getD x = d0
      rw [hd0]
      rfl
    rw [hfx]
    exact ⟨hd0mem, deps_sub tasks hdeps x d0 hd0mem, by simpa using hd0p⟩
  set g : ℕ → String := fun k => f^[k] x0 with hg
  have hAll : ∀ k, g k ∈ tasks.map Prod.fst ∧ g k ∉ o := by
    intro k
    induction k with
    | zero => exact ⟨hx0, hx0o⟩
    | succ k ihk =>
        have : g (k + 1) = f (g k) := by
          rw [hg]
          exact Function.iterate_succ_apply' f k x0
        rw [this]
        exact ⟨(hstep (g k) ihk.1 ihk.2).2.1, (hstep (g k) ihk.1 ihk.2).2.2⟩
  have hEdge : ∀ k, DependsEdge tasks (g k) (g (k + 1)) := by
    intro k
    have hsucc : g (k + 1) = f (g k) := Function.iterate_succ_apply' f k x0
    rw [DependsEdge, hsucc]
    exact (hstep (g k) (hAll k).1 (hAll k).2).1
  have hcard : (((tasks.map Prod.fst).filter (fun x => x ∉ o)).toFinset).card
      < (Finset.range (tasks.length + 1)).card := by
    rw [Finset.card_range]
    have h1 := List.toFinset_card_le
      ((tasks.map Prod.fst).filter (fun x => x ∉ o))
    have h2 := List.length_filter_le (fun x => decide (x ∉ o))
      (tasks.map Prod.fst)
    have h3 : (tasks.map Prod.fst).length = tasks.length :=
      List.length_map _ _
    omega
  have hmaps : ∀ i ∈ Finset.range (tasks.length + 1),
      g i ∈ ((tasks.map Prod.fst).filter (fun x => x ∉ o)).toFinset := by
    intro i _
    rw [List.mem_toFinset, List.mem_filter]
    exact ⟨(hAll i).1, by simpa using (hAll i).2⟩
  rcases Finset.exists_ne_map_eq_of_card_lt_of_maps_to hcard hmaps with
    ⟨i, _, j, _, hij, hgij⟩
  rcases Nat.lt_or_ge i j with hlt | hge
  case _ =>
    exact build_cycle tasks g hEdge i j hlt hgij
  case _ =>
    have hlt : j < i := by omega
    exact build_cycle tasks g hEdge j i hlt hgij.symm

theorem insertStr_mem (x y : String) :
    ∀ l, x ∈ insertStr y l ↔ x = y ∨ x ∈ l := by
  intro l
  induction l with
  | nil => simp [insertStr]
  | cons a t ih =>
      rw [insertStr]
      split_ifs
      · rw [List.mem_cons, ih, List.mem_cons]
        tauto
      · rw [List.mem_cons, List.mem_cons]

theorem sortStrings_mem (x : String) :
    ∀ l, x ∈ sortStrings l ↔ x ∈ l := by
  intro l
  induction l with
  | nil => simp [sortStrings]
  | cons a t ih =>
      rw [sortStrings, insertStr_mem, ih, List.mem_cons]

theorem findDangling_eq_none (tasks : List (String × Task))
    (hdeps : ∀ p ∈ tasks, ∀ d ∈ p.2.dependsOn, d ∈ tasks.map Prod.fst) :
    findDangling tasks = none := by
  rw [findDangling, List.findSome?_eq_none]
  intro p hp
  rw [Option.map_eq_none', List.find?_eq_none]
  intro d hd
  simp [hdeps p hp d hd]

theorem no_cycle_of_rank (tasks : List (String × Task)) (rho : String → ℕ)
    (h : ∀ a b, DependsEdge tasks a b → rho b < rho a) :
    ¬ ∃ c, IsCycle tasks c := by
  rintro ⟨c, hch, a, b, hhead, hlast, hclose⟩
  have dec : ∀ (l : List String) (x y : String),
      l.Chain' (DependsEdge tasks) → l.head? = some x →
      l.getLast? = some y → rho y ≤ rho x := by
    intro l
    induction l with
    | nil => intro x y _ hx _; cases hx
    | cons hd t iht =>
        intro x y hch2 hx hy
        rw [List.head?_cons, Option.some_inj] at hx
        subst hx
        cases t with
        | nil =>
            rw [List.getLast?_singleton, Option.some_inj] at hy
            subst hy
            exact le_refl _
        | cons h2 t2 =>
            have hedge := (List.chain'_cons.mp hch2).1
            rw [List.getLast?_cons_cons] at hy
            have hrec := iht h2 y (List.chain'_cons.mp hch2).2 rfl hy
            exact le_trans hrec (le_of_lt (h _ _ hedge))
  have hba := dec c a b hch hhead hlast
  have := h b a hclose
  omega

/-- **C2**: on a task map with unique ids, no dangling dependencies and no
dependency cycle, the resolver succeeds with a total order containing every
TaskID exactly once in which every task appears strictly after each of its
dependencies; and the task emitted from any ready frontier has minimal
priority rank (High=1, Medium=2, Low=3, unknown=99) in that frontier. -/
theorem c2_resolver_correct (tasks : List (String × Task))
    (hnd : (tasks.map Prod.fst).Nodup)
    (hdeps : ∀ p ∈ tasks, ∀ d ∈ p.2.dependsOn, d ∈ tasks.map Prod.fst)
    (hacyc : ¬ ∃ c, IsCycle tasks c) :
    ∃ o, topological_sort tasks = Except.ok o ∧
      o.Nodup ∧ (∀ x, x ∈ o ↔ x ∈ tasks.map Prod.fst) ∧
      (∀ p ∈ tasks, ∀ d ∈ p.2.dependsOn,
        ∃ l1 l2, o = l1 ++ p.1 :: l2 ∧ d ∈ l1) ∧
      (∀ (q : String) (qs : List String), ∀ e ∈ q :: qs,
        rankOf tasks ((sortByKey (rankOf tasks) (q :: qs)).headD q)
          ≤ rankOf tasks e) := by
  rcases kahnLoop_spec tasks hnd tasks.length (inDeg0 tasks)
    (initQueue tasks) [] (kahnInit tasks hnd) (by simp) with
    ⟨tail, heq, hnodup, hsub, htopo, hstuck⟩
  rw [List.nil_append] at heq hnodup hsub htopo hstuck
  have hall : ∀ x ∈ tasks.map Prod.fst, x ∈ tail := by
    intro x hx
    by_contra hxo
    exact hacyc (cycle_of_stuck tasks tail hdeps hstuck x hx hxo)
  have hlen : tail.length = tasks.length := by
    have h1 : tail.length ≤ (tasks.map Prod.fst).length :=
      (hnodup.subperm hsub).length_le
    have h2 : (tasks.map Prod.fst).length ≤ tail.length :=
      (hnd.subperm hall).length_le
    rw [List.length_map] at h1 h2
    omega
  have hko : kahnOrder tasks = tail := by rw [kahnOrder, heq]
  refine ⟨tail, ?_, hnodup, ?_, ?_, ?_⟩
  · rw [topological_sort, findDangling_eq_none tasks hdeps]
    simp only [hko]
    rw [if_neg (by omega)]
  · intro x
    exact ⟨fun h => hsub x h, fun h => hall x h⟩
  · intro p hp d hd
    obtain ⟨k, v⟩ := p
    have hdeq : depsOf tasks k = v.dependsOn := depsOf_eq tasks k v hnd hp
    exact htopo k (hall k (List.mem_map.mpr ⟨(k, v), hp, rfl⟩)) d
      (by rw [hdeq]; exact hd)
  · intro q qs e he
    rcases select_spec (rankOf tasks) q qs with ⟨_, _, _, _, hmin⟩
    exact hmin e he

/-- **C8**: with all dependencies existing but at least one cycle present,
the resolver fails with a cycle error naming exactly the residual set: an
id is in the error list iff it is a task id that the loop did not emit. -/
theorem c8_cycle_error (tasks : List (String × Task))
    (hnd : (tasks.map Prod.fst).Nodup)
    (hdeps : ∀ p ∈ tasks, ∀ d ∈ p.2.dependsOn, d ∈ tasks.map Prod.fst)
    (hcyc : ∃ c, IsCycle tasks c) :
    ∃ L, topological_sort tasks = Except.error (TopoError.cycle L) ∧
      ∀ x, x ∈ L ↔ (x ∈ tasks.map Prod.fst ∧ x ∉ kahnOrder tasks) := by
  rcases kahnLoop_spec tasks hnd tasks.length (inDeg0 tasks)
    (initQueue tasks) [] (kahnInit tasks hnd) (by simp) with
    ⟨tail, heq, hnodup, hsub, htopo, hstuck⟩
  rw [List.nil_append] at heq hnodup hsub htopo hstuck
  have hko : kahnOrder tasks = tail := by rw [kahnOrder, heq]
  rcases hcyc with ⟨c, hc⟩
  have hnotin := cycle_not_emitted tasks tail hnodup htopo c hc
  obtain ⟨a, hamem⟩ : ∃ a, a ∈ c := by
    rcases hc with ⟨_, a, b, hhead, _, _⟩
    cases c with
    | nil => cases hhead
    | cons h t => exact ⟨h, List.mem_cons_self _ _⟩
  have haids : a ∈ tasks.map Prod.fst := by
    rcases cycSucc tasks c hc a hamem with ⟨y, _, he⟩
    apply mem_ids_of_depsOf_ne_nil
    intro hnil
    rw [DependsEdge, hnil] at he
    cases he
  have hanot : a ∉ tail := hnotin a hamem
  have hlen : tail.length ≠ tasks.length := by
    intro hl
    have := ids_subset_of_card tasks tail hnodup hsub (by omega)
    exact hanot (this a haids)
  refine ⟨sortStrings ((tasks.map Prod.fst).filter
      (fun x => x ∉ kahnOrder tasks)), ?_, ?_⟩
  · rw [topological_sort, findDangling_eq_none tasks hdeps]
    simp only [hko]
    rw [if_pos hlen]
  · intro x
    rw [sortStrings_mem, List.mem_filter]
    simp

/-- Witness task constructor. -/
def tTask (id : String) (deps : List String) (prio : String) : Task :=
  { sampleTask with taskId := id, dependsOn := deps, priority := prio }

def wTasks : List (String × Task) :=
  [("A", tTask "A" [] "High"), ("B", tTask "B" ["A"] "Low")]

def cycTasks : List (String × Task) :=
  [("A", tTask "A" ["B"] "High"), ("B", tTask "B" ["A"] "High")]

theorem wTasks_acyclic : ¬ ∃ c, IsCycle wTasks c := by
  apply no_cycle_of_rank wTasks (fun x => if x = "B" then 1 else 0)
  intro a b hab
  rw [DependsEdge] at hab
  by_cases h1 : a = "A"
  · subst h1
    have hda : depsOf wTasks "A" = [] := by decide
    rw [hda] at hab
    cases hab
  · by_cases h2 : a = "B"
    · subst h2
      have hdb : depsOf wTasks "B" = ["A"] := by decide
      rw [hdb] at hab
      rcases List.mem_singleton.mp hab with rfl
      decide
    · have hnone : depsOf wTasks a = [] := by
        rw [depsOf]
        have hn : findTask wTasks a = none := by
          rw [findTask_eq_none]
          simp [wTasks, tTask, sampleTask, h1, h2]
        rw [hn]
      rw [hnone] at hab
      cases hab

/-- Witness for C2 at a concrete two-task map (acyclicity discharged by a
decreasing rank function). -/
theorem c2_resolver_correct_witness :
    ∃ o, topological_sort wTasks = Except.ok o ∧ o.Nodup ∧
      (∀ x, x ∈ o ↔ x ∈ wTasks.map Prod.fst) ∧
      (∀ p ∈ wTasks, ∀ d ∈ p.2.dependsOn,
        ∃ l1 l2, o = l1 ++ p.1 :: l2 ∧ d ∈ l1) ∧
      (∀ (q : String) (qs : List String), ∀ e ∈ q :: qs,
        rankOf wTasks ((sortByKey (rankOf wTasks) (q :: qs)).headD q)
          ≤ rankOf wTasks e) :=
  c2_resolver_correct wTasks (by decide) (by decide) wTasks_acyclic

theorem cycTasks_cycle : ∃ c, IsCycle cycTasks c :=
  ⟨["A", "B"],
   List.chain'_cons.mpr
     ⟨by show "B" ∈ depsOf cycTasks "A"; decide, List.chain'_singleton "B"⟩,
   "A", "B", rfl, rfl, by show "A" ∈ depsOf cycTasks "B"; decide⟩

/-- Witness for C8: the two-task cycle of the spec example; the error names
both `A` and `B`. -/
theorem c8_cycle_error_witness :
    (∃ L, topological_sort cycTasks = Except.error (TopoError.cycle L) ∧
      ∀ x, x ∈ L ↔ (x ∈ cycTasks.map Prod.fst ∧ x ∉ kahnOrder cycTasks)) ∧
    topological_sort cycTasks
      = Except.error (TopoError.cycle ["A", "B"]) :=
  ⟨c8_cycle_error cycTasks (by decide) (by decide) cycTasks_cycle, by decide⟩

/-! ## Business-hours allocator (`allocate_schedule`)

The cursor is a rational number of hours since midnight of day 0.  The
`datetime.hour` attribute is `hourOf`; `replace(hour=H, minute=0)` (which
keeps the day and the sub-minute part) is `setHM`. -/

/-- Working-day start (`WORK_START_HOUR`). -/
def WORK_START_HOUR : ℤ := 9

/-- Working-day end (`WORK_END_HOUR`). -/
def WORK_END_HOUR : ℤ := 17

/-- Lunch start (`LUNCH_START_HOUR`). -/
def LUNCH_START_HOUR : ℤ := 12

/-- Lunch end (`LUNCH_END_HOUR`). -/
def LUNCH_END_HOUR : ℤ := 13

/-- Calendar day of a cursor. -/
def dayOf (c : ℚ) : ℤ := ⌊c⌋ / 24

/-- The `hour` attribute of a cursor. -/
def hourOf (c : ℚ) : ℤ := ⌊c⌋ % 24

/-- `replace(hour=H, minute=0)`: keep the day and the sub-minute part,
set the hour to `H` and the minute to zero. -/
def setHM (c : ℚ) (H : ℤ) : ℚ :=
  24 * dayOf c + H + (c - (⌊c * 60⌋ : ℚ) / 60)

/-- The sub-minute part of a cursor is in `[0, 1/60)` hours. -/
theorem subMinute_bounds (c : ℚ) :
    0 ≤ c - (⌊c * 60⌋ : ℚ) / 60 ∧ c - (⌊c * 60⌋ : ℚ) / 60 < 1 / 60 := by
  constructor
  · have h := Int.floor_le (c * 60)
    rw [sub_nonneg, div_le_iff (by norm_num)]
    linarith
  · have h := Int.lt_floor_add_one (c * 60)
    rw [sub_lt_iff_lt_add]
    rw [div_add_div_same, lt_div_iff (by norm_num : (0:ℚ) < 60)]
    linarith

theorem hourOf_bounds (c : ℚ) : 0 ≤ hourOf c ∧ hourOf c < 24 :=
  ⟨Int.emod_nonneg _ (by norm_num), Int.emod_lt_of_pos _ (by norm_num)⟩

theorem floor_decomp (c : ℚ) : ⌊c⌋ = 24 * dayOf c + hourOf c :=
  (Int.ediv_add_emod ⌊c⌋ 24).symm

theorem setHM_day_hour (c : ℚ) (H : ℤ) (h0 : 0 ≤ H) (h1 : H < 24) :
    dayOf (setHM c H) = dayOf c ∧ hourOf (setHM c H) = H := by
  have hs := subMinute_bounds c
  have hfloor : ⌊setHM c H⌋ = 24 * dayOf c + H := by
    rw [setHM]
    rw [show (24 * dayOf c : ℚ) + (H : ℚ) + (c - (⌊c * 60⌋ : ℚ) / 60)
        = (c - (⌊c * 60⌋ : ℚ) / 60) + ((24 * dayOf c + H : ℤ) : ℚ) by
      push_cast; ring]
    rw [Int.floor_add_int]
    have : ⌊c - (⌊c * 60⌋ : ℚ) / 60⌋ = 0 := by
      rw [Int.floor_eq_zero_iff]
      constructor
      · exact hs.1
      · calc c - (⌊c * 60⌋ : ℚ) / 60 < 1 / 60 := hs.2
          _ < 1 := by norm_num
    omega
  constructor
  · rw [dayOf, hfloor]
    rw [show 24 * dayOf c + H = H + dayOf c * 24 by ring]
    rw [Int.add_mul_ediv_right _ _ (by norm_num : (24:ℤ) ≠ 0)]
    rw [Int.ediv_eq_zero_of_lt h0 h1]
    omega
  · rw [hourOf, hfloor]
    rw [show 24 * dayOf c + H = H + dayOf c * 24 by ring]
    rw [Int.add_mul_emod_self]
    exact Int.emod_eq_of_lt h0 h1

theorem setHM_ge (c : ℚ) (H : ℤ) (h : hourOf c < H) : c ≤ setHM c H := by
  have hs := subMinute_bounds c
  have hfl := floor_decomp c
  have hlt := Int.lt_floor_add_one c
  rw [setHM]
  have hcast : ((⌊c⌋ : ℤ) : ℚ) = 24 * (dayOf c : ℚ) + (hourOf c : ℚ) := by
    rw [hfl]
    push_cast
    ring
  have hHcast : (hourOf c : ℚ) + 1 ≤ (H : ℚ) := by
    have : hourOf c + 1 ≤ H := h
    exact_mod_cast this
  have h1 : c < 24 * (dayOf c : ℚ) + (hourOf c : ℚ) + 1 := by
    calc c < (⌊c⌋ : ℚ) + 1 := hlt
      _ = 24 * (dayOf c : ℚ) + (hourOf c : ℚ) + 1 := by rw [hcast]
  linarith [hs.1]

theorem dayOf_add24 (c : ℚ) : dayOf (c + 24) = dayOf c + 1 := by
  rw [dayOf, dayOf]
  rw [show (24 : ℚ) = ((24 : ℤ) : ℚ) by norm_num, Int.floor_add_int]
  rw [show ⌊c⌋ + 24 = ⌊c⌋ + 1 * 24 by ring]
  rw [Int.add_mul_ediv_right _ _ (by norm_num : (24:ℤ) ≠ 0)]

theorem setHM_add24_ge (c : ℚ) : c ≤ setHM (c + 24) 9 := by
  have hs := subMinute_bounds (c + 24)
  have hb := hourOf_bounds c
  have hfl := floor_decomp c
  have hlt := Int.lt_floor_add_one c
  rw [setHM, dayOf_add24]
  have hcast : ((⌊c⌋ : ℤ) : ℚ) = 24 * (dayOf c : ℚ) + (hourOf c : ℚ) := by
    rw [hfl]
    push_cast
    ring
  have h1 : c < 24 * (dayOf c : ℚ) + 24 := by
    have h2 : (hourOf c : ℚ) ≤ 23 := by
      have : hourOf c ≤ 23 := by omega
      exact_mod_cast this
    calc c < (⌊c⌋ : ℚ) + 1 := hlt
      _ = 24 * (dayOf c : ℚ) + (hourOf c : ℚ) + 1 := by rw [hcast]
      _ ≤ 24 * (dayOf c : ℚ) + 24 := by linarith
  have : (24 * (dayOf c + 1) + 9 : ℚ) = 24 * (dayOf c : ℚ) + 33 := by
    push_cast
    ring
  push_cast
  linarith [hs.1]

def snapFlag (c : ℚ) : ℕ :=
  if hourOf c < 9 ∨ (12 ≤ hourOf c ∧ hourOf c < 13) ∨ 17 ≤ hourOf c then 1 else 0

theorem snapFlag_le (c : ℚ) : snapFlag c ≤ 1 := by
  rw [snapFlag]
  split <;> omega

theorem snapFlag_aligned (c : ℚ) (H : ℤ) (h0 : 0 ≤ H) (h1 : H < 24)
    (h9 : 9 ≤ H) (h12 : ¬(12 ≤ H ∧ H < 13)) (h17 : H < 17) :
    snapFlag (setHM c H) = 0 := by
  have hd := (setHM_day_hour c H h0 h1).2
  rw [snapFlag, hd]
  rw [if_neg (by omega)]

theorem ceil_toNat_decrease (rem htw : ℚ) (hrem : 0 < rem)
    (h : 1 ≤ htw ∨ rem ≤ htw) : ⌈rem - htw⌉.toNat < ⌈rem⌉.toNat := by
  have hpos : 0 < ⌈rem⌉ := Int.ceil_pos.mpr hrem
  rcases h with h | h
  · have h2 : rem - htw ≤ rem - ((1 : ℤ) : ℚ) := by push_cast; linarith
    have h3 : ⌈rem - htw⌉ ≤ ⌈rem - ((1 : ℤ) : ℚ)⌉ := Int.ceil_mono h2
    rw [Int.ceil_sub_int] at h3
    omega
  · have h2 : rem - htw ≤ 0 := by linarith
    have h3 : ⌈rem - htw⌉ ≤ 0 := Int.ceil_le.mpr (by push_cast; linarith)
    omega

def workStep (cursor rem : ℚ) : ℚ :=
  if hourOf cursor < 12 ∧
      (12 : ℚ) < (hourOf cursor : ℚ) + min rem ((17 : ℚ) - (hourOf cursor : ℚ)) then
    ((12 - hourOf cursor : ℤ) : ℚ)
  else min rem ((17 : ℚ) - (hourOf cursor : ℚ))

theorem workStep_big (cursor rem : ℚ) (h9 : 9 ≤ hourOf cursor)
    (h17 : hourOf cursor < 17) :
    1 ≤ workStep cursor rem ∨ rem ≤ workStep cursor rem := by
  rw [workStep]
  split
  · left
    rename_i hc
    have : (1 : ℤ) ≤ 12 - hourOf cursor := by omega
    exact_mod_cast this
  · rcases le_total rem ((17 : ℚ) - (hourOf cursor : ℚ)) with h | h
    · right
      rw [min_eq_left h]
    · left
      rw [min_eq_right h]
      have : ((1 : ℤ) : ℚ) ≤ (17 : ℚ) - (hourOf cursor : ℚ) := by
        have h2 : (hourOf cursor : ℚ) ≤ ((16 : ℤ) : ℚ) := by
          exact_mod_cast (by omega : hourOf cursor ≤ 16)
        push_cast at h2 ⊢
        linarith
      exact_mod_cast this

def allocLoop (cursor : ℚ) (start : Option ℚ) (rem : ℚ) : ℚ × Option ℚ :=
  if h0 : rem ≤ 0 then (cursor, start)
  else if h1 : hourOf cursor < 9 then
    allocLoop (setHM cursor 9) start rem
  else if h2 : 12 ≤ hourOf cursor ∧ hourOf cursor < 13 then
    allocLoop (setHM cursor 13) start rem
  else if h3 : 17 ≤ hourOf cursor then
    allocLoop (setHM (cursor + 24) 9) start rem
  else
    allocLoop (cursor + workStep cursor rem) (some (start.getD cursor))
      (rem - workStep cursor rem)
termination_by 2 * ⌈rem⌉.toNat + snapFlag cursor
decreasing_by
  · have hA : snapFlag (setHM cursor 9) = 0 :=
      snapFlag_aligned cursor 9 (by norm_num) (by norm_num) (by norm_num)
        (by omega) (by norm_num)
    have hB : snapFlag cursor = 1 := by
      rw [snapFlag, if_pos (Or.inl h1)]
    omega
  · have hA : snapFlag (setHM cursor 13) = 0 :=
      snapFlag_aligned cursor 13 (by norm_num) (by norm_num) (by norm_num)
        (by omega) (by norm_num)
    have hB : snapFlag cursor = 1 := by
      rw [snapFlag, if_pos (Or.inr (Or.inl h2))]
    omega
  · have hA : snapFlag (setHM (cursor + 24) 9) = 0 :=
      snapFlag_aligned (cursor + 24) 9 (by norm_num) (by norm_num) (by norm_num)
        (by omega) (by norm_num)
    have hB : snapFlag cursor = 1 := by
      rw [snapFlag, if_pos (Or.inr (Or.inr h3))]
    omega
  · have hrem : 0 < rem := by linarith [not_le.mp h0]
    have hdec := ceil_toNat_decrease rem (workStep cursor rem) hrem
      (workStep_big cursor rem (by omega) (by omega))
    have hle := snapFlag_le (cursor + workStep cursor rem)
    have hle2 := snapFlag_le cursor
    omega

def allocGo (cursor : ℚ) : List ℚ → List (Option ℚ × ℚ)
  | [] => []
  | d :: rest =>
    let r := allocLoop cursor none d
    (r.2, r.1) :: allocGo r.1 rest

def allocate_schedule (now : ℚ) (durs : List ℚ) : List (Option ℚ × ℚ) :=
  allocGo ((24 * dayOf now + 9 : ℤ) : ℚ) durs

def wday (x : ℚ) : ℚ := min (max (x - 9) 0) 3 + min (max (x - 13) 0) 4

def workHoursUpTo (c : ℚ) : ℚ := 7 * (dayOf c : ℚ) + wday (c - 24 * (dayOf c : ℚ))

theorem workStep_pos (c rem : ℚ) (hrem : 0 < rem) (h17 : hourOf c < 17) :
    0 < workStep c rem := by
  rw [workStep]
  split
  · rename_i hc
    have : (0 : ℤ) < 12 - hourOf c := by omega
    exact_mod_cast this
  · apply lt_min hrem
    have : ((0 : ℤ) : ℚ) < ((17 - hourOf c : ℤ) : ℚ) := by
      exact_mod_cast (by omega : (0 : ℤ) < 17 - hourOf c)
    push_cast at this
    linarith

theorem allocLoop_done (c : ℚ) (st : Option ℚ) (rem : ℚ) (h : rem ≤ 0) :
    allocLoop c st rem = (c, st) := by
  rw [allocLoop, dif_pos h]

theorem allocLoop_snap9 (c : ℚ) (st : Option ℚ) (rem : ℚ) (h0 : ¬rem ≤ 0)
    (h1 : hourOf c < 9) : allocLoop c st rem = allocLoop (setHM c 9) st rem := by
  rw [allocLoop, dif_neg h0, dif_pos h1]

theorem allocLoop_lunch (c : ℚ) (st : Option ℚ) (rem : ℚ) (h0 : ¬rem ≤ 0)
    (h1 : ¬hourOf c < 9) (h2 : 12 ≤ hourOf c ∧ hourOf c < 13) :
    allocLoop c st rem = allocLoop (setHM c 13) st rem := by
  rw [allocLoop, dif_neg h0, dif_neg h1, dif_pos h2]

theorem allocLoop_eod (c : ℚ) (st : Option ℚ) (rem : ℚ) (h0 : ¬rem ≤ 0)
    (h1 : ¬hourOf c < 9) (h2 : ¬(12 ≤ hourOf c ∧ hourOf c < 13))
    (h3 : 17 ≤ hourOf c) :
    allocLoop c st rem = allocLoop (setHM (c + 24) 9) st rem := by
  rw [allocLoop, dif_neg h0, dif_neg h1, dif_neg h2, dif_pos h3]

theorem allocLoop_work (c : ℚ) (st : Option ℚ) (rem : ℚ) (h0 : ¬rem ≤ 0)
    (h1 : ¬hourOf c < 9) (h2 : ¬(12 ≤ hourOf c ∧ hourOf c < 13))
    (h3 : ¬17 ≤ hourOf c) :
    allocLoop c st rem =
      allocLoop (c + workStep c rem) (some (st.getD c)) (rem - workStep c rem) := by
  rw [allocLoop, dif_neg h0, dif_neg h1, dif_neg h2, dif_neg h3]

theorem allocLoop_seq (c : ℚ) (st : Option ℚ) (rem : ℚ) :
    c ≤ (allocLoop c st rem).1 ∧
    (((allocLoop c st rem).2 = st ∧ rem ≤ 0) ∨
      ∃ s, (allocLoop c st rem).2 = some s ∧
        (st = some s ∨ (st = none ∧ c ≤ s ∧ s ≤ (allocLoop c st rem).1))) := by
  induction c, st, rem using allocLoop.induct with
  | case1 c st rem h0 =>
    rw [allocLoop_done c st rem h0]
    exact ⟨le_rfl, Or.inl ⟨rfl, h0⟩⟩
  | case2 c st rem h0 h1 ih =>
    rw [allocLoop_snap9 c st rem h0 h1]
    have hmv := setHM_ge c 9 (by omega)
    refine ⟨le_trans hmv ih.1, ?_⟩
    rcases ih.2 with ⟨_, hr⟩ | ⟨s, hs, hc⟩
    · exact absurd hr h0
    · refine Or.inr ⟨s, hs, ?_⟩
      rcases hc with hc | ⟨hn, hge, hle⟩
      · exact Or.inl hc
      · exact Or.inr ⟨hn, le_trans hmv hge, hle⟩
  | case3 c st rem h0 h1 h2 ih =>
    rw [allocLoop_lunch c st rem h0 h1 h2]
    have hmv := setHM_ge c 13 (by omega)
    refine ⟨le_trans hmv ih.1, ?_⟩
    rcases ih.2 with ⟨_, hr⟩ | ⟨s, hs, hc⟩
    · exact absurd hr h0
    · refine Or.inr ⟨s, hs, ?_⟩
      rcases hc with hc | ⟨hn, hge, hle⟩
      · exact Or.inl hc
      · exact Or.inr ⟨hn, le_trans hmv hge, hle⟩
  | case4 c st rem h0 h1 h2 h3 ih =>
    rw [allocLoop_eod c st rem h0 h1 h2 h3]
    have hmv := setHM_add24_ge c
    refine ⟨le_trans hmv ih.1, ?_⟩
    rcases ih.2 with ⟨_, hr⟩ | ⟨s, hs, hc⟩
    · exact absurd hr h0
    · refine Or.inr ⟨s, hs, ?_⟩
      rcases hc with hc | ⟨hn, hge, hle⟩
      · exact Or.inl hc
      · exact Or.inr ⟨hn, le_trans hmv hge, hle⟩
  | case5 c st rem h0 h1 h2 h3 ih =>
    rw [allocLoop_work c st rem h0 h1 h2 h3]
    have hw := workStep_pos c rem (by linarith [not_le.mp h0]) (by omega)
    have hmv : c ≤ c + workStep c rem := by linarith
    refine ⟨le_trans hmv ih.1, ?_⟩
    have hgoal : ∃ s,
        (allocLoop (c + workStep c rem) (some (st.getD c))
          (rem - workStep c rem)).2 = some s ∧
        (st = some s ∨ (st = none ∧ c ≤ s ∧
          s ≤ (allocLoop (c + workStep c rem) (some (st.getD c))
            (rem - workStep c rem)).1)) := by
      rcases ih.2 with ⟨heq, _⟩ | ⟨s, hs, hc⟩
      · refine ⟨st.getD c, heq, ?_⟩
        cases st with
        | none =>
          exact Or.inr ⟨rfl, le_rfl, le_trans hmv ih.1⟩
        | some s0 => exact Or.inl rfl
      · rcases hc with hc | ⟨hn, _, _⟩
        · have hseq : s = st.getD c := by
            injection hc.symm
          subst hseq
          refine ⟨st.getD c, hs, ?_⟩
          cases st with
          | none =>
            exact Or.inr ⟨rfl, le_rfl, le_trans hmv ih.1⟩
          | some s0 => exact Or.inl rfl
        · exact absurd hn (by simp)
    exact Or.inr hgoal

theorem allocGo_seq (c : ℚ) (ds : List ℚ) (h : ∀ d ∈ ds, 0 < d) :
    (∀ p ∈ allocGo c ds, ∃ s, p.1 = some s ∧ c ≤ s ∧ s ≤ p.2) ∧
    List.Chain' (fun a b => ∀ s2 ∈ b.1, a.2 ≤ s2) (allocGo c ds) := by
  induction ds generalizing c with
  | nil => simp [allocGo]
  | cons d rest ih =>
    have hd : 0 < d := h d (List.mem_cons_self d rest)
    have hseq := allocLoop_seq c none d
    rcases hseq.2 with ⟨_, hr⟩ | ⟨s, hs, hc⟩
    · linarith
    rcases hc with hc | ⟨_, hge, hle⟩
    · exact absurd hc (by simp)
    have ihr := ih (allocLoop c none d).1 (fun x hx => h x (List.mem_cons_of_mem d hx))
    constructor
    · intro p hp
      simp only [allocGo] at hp
      rcases List.mem_cons.mp hp with hp | hp
      · exact ⟨s, by rw [hp]; exact hs, hge, by rw [hp]; exact hle⟩
      · obtain ⟨s2, hs2, hge2, hle2⟩ := ihr.1 p hp
        exact ⟨s2, hs2, le_trans hseq.1 hge2, hle2⟩
    · simp only [allocGo]
      apply List.chain'_cons'.mpr
      refine ⟨?_, ihr.2⟩
      intro y hy s2 hs2
      have hym : y ∈ allocGo (allocLoop c none d).1 rest :=
        List.mem_of_mem_head? hy
      obtain ⟨s3, hs3, hge3, _⟩ := ihr.1 y hym
      have : s2 = s3 := by
        rw [Option.mem_def] at hs2
        rw [hs2] at hs3
        injection hs3
      rw [this]
      exact hge3

theorem hourOf_int (k : ℤ) : hourOf (k : ℚ) = k % 24 := by
  rw [hourOf, Int.floor_intCast]

theorem dayOf_int (k : ℤ) : dayOf (k : ℚ) = k / 24 := by
  rw [dayOf, Int.floor_intCast]

theorem setHM_int (k H : ℤ) :
    setHM (k : ℚ) H = ((24 * (k / 24) + H : ℤ) : ℚ) := by
  rw [setHM, dayOf_int]
  have h1 : ⌊((k : ℚ) * 60)⌋ = k * 60 := by
    rw [show ((k : ℚ) * 60) = ((k * 60 : ℤ) : ℚ) by push_cast; ring,
      Int.floor_intCast]
  rw [h1]
  push_cast
  ring

theorem wday_intCast (h : ℤ) :
    wday (h : ℚ) = ((min (max (h - 9) 0) 3 + min (max (h - 13) 0) 4 : ℤ) : ℚ) := by
  rw [wday]
  push_cast
  ring

theorem workHoursUpTo_int (k : ℤ) :
    workHoursUpTo (k : ℚ)
      = ((7 * (k / 24) + (min (max (k % 24 - 9) 0) 3
          + min (max (k % 24 - 13) 0) 4) : ℤ) : ℚ) := by
  rw [workHoursUpTo, dayOf_int]
  have h2 : (k : ℚ) - 24 * ((k / 24 : ℤ) : ℚ) = ((k % 24 : ℤ) : ℚ) := by
    rw [Int.emod_def]
    push_cast
    ring
  rw [h2, wday_intCast]
  push_cast
  ring

theorem workStep_int (k n : ℤ) :
    workStep (k : ℚ) (n : ℚ) =
      ((if k % 24 < 12 ∧ 12 < k % 24 + min n (17 - k % 24)
        then 12 - k % 24 else min n (17 - k % 24) : ℤ) : ℚ) := by
  rw [workStep, hourOf_int]
  have hmin : min (n : ℚ) ((17 : ℚ) - ((k % 24 : ℤ) : ℚ))
      = ((min n (17 - k % 24) : ℤ) : ℚ) := by
    push_cast
    rfl
  rw [hmin]
  by_cases hcond : k % 24 < 12 ∧ 12 < k % 24 + min n (17 - k % 24)
  · have hcondQ : k % 24 < 12 ∧
        (12 : ℚ) < ((k % 24 : ℤ) : ℚ) + ((min n (17 - k % 24) : ℤ) : ℚ) := by
      refine ⟨hcond.1, ?_⟩
      have := hcond.2
      exact_mod_cast this
    rw [if_pos hcondQ, if_pos hcond]
  · have hcondQ : ¬(k % 24 < 12 ∧
        (12 : ℚ) < ((k % 24 : ℤ) : ℚ) + ((min n (17 - k % 24) : ℤ) : ℚ)) := by
      intro hx
      refine hcond ⟨hx.1, ?_⟩
      have := hx.2
      exact_mod_cast this
    rw [if_neg hcondQ, if_neg hcond]

theorem allocLoop_W (c : ℚ) (st : Option ℚ) (rem : ℚ)
    (hc : ∃ k : ℤ, c = (k : ℚ)) (hrem : ∃ n : ℤ, 0 ≤ n ∧ rem = (n : ℚ)) :
    (∃ ke : ℤ, (allocLoop c st rem).1 = (ke : ℚ)) ∧
    workHoursUpTo (allocLoop c st rem).1 = workHoursUpTo c + rem ∧
    ((rem ≤ 0 ∧ (allocLoop c st rem).2 = st) ∨
      (0 < rem ∧ ∃ s, (allocLoop c st rem).2 = some s ∧
        (st = some s ∨ (st = none ∧ workHoursUpTo s = workHoursUpTo c)))) := by
  induction c, st, rem using allocLoop.induct with
  | case1 c st rem h0 =>
    obtain ⟨k, rfl⟩ := hc
    obtain ⟨n, hn0, rfl⟩ := hrem
    have hn : n = 0 := by
      have : (n : ℚ) ≤ 0 := h0
      have : n ≤ 0 := by exact_mod_cast this
      omega
    rw [allocLoop_done _ _ _ h0]
    refine ⟨⟨k, rfl⟩, ?_, Or.inl ⟨h0, rfl⟩⟩
    rw [hn]
    push_cast
    ring
  | case2 c st rem h0 h1 ih =>
    obtain ⟨k, rfl⟩ := hc
    have hk1 : k % 24 < 9 := by
      rw [hourOf_int] at h1
      exact h1
    have hc2 : ∃ k2 : ℤ, setHM ((k : ℤ) : ℚ) 9 = ((k2 : ℤ) : ℚ) :=
      ⟨24 * (k / 24) + 9, setHM_int k 9⟩
    have hWeq : workHoursUpTo (setHM ((k : ℤ) : ℚ) 9)
        = workHoursUpTo ((k : ℤ) : ℚ) := by
      rw [setHM_int, workHoursUpTo_int, workHoursUpTo_int]
      have : (7 * ((24 * (k / 24) + 9) / 24) + (min (max ((24 * (k / 24) + 9) % 24 - 9) 0) 3
          + min (max ((24 * (k / 24) + 9) % 24 - 13) 0) 4) : ℤ)
          = (7 * (k / 24) + (min (max (k % 24 - 9) 0) 3
          + min (max (k % 24 - 13) 0) 4) : ℤ) := by
        omega
      exact_mod_cast this
    obtain ⟨hint, hW, hst⟩ := ih hc2 hrem
    rw [allocLoop_snap9 _ _ _ h0 h1]
    refine ⟨hint, by rw [hW, hWeq], ?_⟩
    rcases hst with ⟨hle, _⟩ | ⟨hpos, s, hs, hsc⟩
    · exact absurd hle h0
    refine Or.inr ⟨hpos, s, hs, ?_⟩
    rcases hsc with hsc | ⟨hn2, hWs⟩
    · exact Or.inl hsc
    · exact Or.inr ⟨hn2, by rw [hWs, hWeq]⟩
  | case3 c st rem h0 h1 h2 ih =>
    obtain ⟨k, rfl⟩ := hc
    have hk1 : 12 ≤ k % 24 ∧ k % 24 < 13 := by
      rw [hourOf_int] at h2
      exact h2
    have hc2 : ∃ k2 : ℤ, setHM ((k : ℤ) : ℚ) 13 = ((k2 : ℤ) : ℚ) :=
      ⟨24 * (k / 24) + 13, setHM_int k 13⟩
    have hWeq : workHoursUpTo (setHM ((k : ℤ) : ℚ) 13)
        = workHoursUpTo ((k : ℤ) : ℚ) := by
      rw [setHM_int, workHoursUpTo_int, workHoursUpTo_int]
      have : (7 * ((24 * (k / 24) + 13) / 24) + (min (max ((24 * (k / 24) + 13) % 24 - 9) 0) 3
          + min (max ((24 * (k / 24) + 13) % 24 - 13) 0) 4) : ℤ)
          = (7 * (k / 24) + (min (max (k % 24 - 9) 0) 3
          + min (max (k % 24 - 13) 0) 4) : ℤ) := by
        omega
      exact_mod_cast this
    obtain ⟨hint, hW, hst⟩ := ih hc2 hrem
    rw [allocLoop_lunch _ _ _ h0 h1 h2]
    refine ⟨hint, by rw [hW, hWeq], ?_⟩
    rcases hst with ⟨hle, _⟩ | ⟨hpos, s, hs, hsc⟩
    · exact absurd hle h0
    refine Or.inr ⟨hpos, s, hs, ?_⟩
    rcases hsc with hsc | ⟨hn2, hWs⟩
    · exact Or.inl hsc
    · exact Or.inr ⟨hn2, by rw [hWs, hWeq]⟩
  | case4 c st rem h0 h1 h2 h3 ih =>
    obtain ⟨k, rfl⟩ := hc
    have hk1 : 17 ≤ k % 24 := by
      rw [hourOf_int] at h3
      exact h3
    have hcast : ((k : ℤ) : ℚ) + 24 = ((k + 24 : ℤ) : ℚ) := by
      push_cast
      ring
    have hc2 : ∃ k2 : ℤ, setHM (((k : ℤ) : ℚ) + 24) 9 = ((k2 : ℤ) : ℚ) :=
      ⟨24 * ((k + 24) / 24) + 9, by rw [hcast, setHM_int]⟩
    have hWeq : workHoursUpTo (setHM (((k : ℤ) : ℚ) + 24) 9)
        = workHoursUpTo ((k : ℤ) : ℚ) := by
      rw [hcast, setHM_int, workHoursUpTo_int, workHoursUpTo_int]
      have : (7 * ((24 * ((k + 24) / 24) + 9) / 24) + (min (max ((24 * ((k + 24) / 24) + 9) % 24 - 9) 0) 3
          + min (max ((24 * ((k + 24) / 24) + 9) % 24 - 13) 0) 4) : ℤ)
          = (7 * (k / 24) + (min (max (k % 24 - 9) 0) 3
          + min (max (k % 24 - 13) 0) 4) : ℤ) := by
        omega
      exact_mod_cast this
    obtain ⟨hint, hW, hst⟩ := ih hc2 hrem
    rw [allocLoop_eod _ _ _ h0 h1 h2 h3]
    refine ⟨hint, by rw [hW, hWeq], ?_⟩
    rcases hst with ⟨hle, _⟩ | ⟨hpos, s, hs, hsc⟩
    · exact absurd hle h0
    refine Or.inr ⟨hpos, s, hs, ?_⟩
    rcases hsc with hsc | ⟨hn2, hWs⟩
    · exact Or.inl hsc
    · exact Or.inr ⟨hn2, by rw [hWs, hWeq]⟩
  | case5 c st rem h0 h1 h2 h3 ih =>
    obtain ⟨k, rfl⟩ := hc
    obtain ⟨n, hn0, rfl⟩ := hrem
    have hk9 : 9 ≤ k % 24 := by
      rw [hourOf_int] at h1
      omega
    have hk17 : k % 24 < 17 := by
      rw [hourOf_int] at h3
      omega
    have hk12 : ¬(12 ≤ k % 24 ∧ k % 24 < 13) := by
      rw [hourOf_int] at h2
      exact h2
    have hnpos : 0 < n := by
      have : ¬((n : ℚ) ≤ 0) := h0
      have h4 : ¬(n ≤ 0) := fun hx => this (by exact_mod_cast hx)
      omega
    have hwz := workStep_int k n
    obtain ⟨wz, hwzdef⟩ : ∃ wz : ℤ, workStep ((k : ℤ) : ℚ) ((n : ℤ) : ℚ)
        = ((wz : ℤ) : ℚ) ∧ wz = (if k % 24 < 12 ∧ 12 < k % 24 + min n (17 - k % 24)
          then 12 - k % 24 else min n (17 - k % 24)) := ⟨_, hwz, rfl⟩
    have hwz1 : 0 < wz ∧ wz ≤ n ∧ k % 24 + wz ≤ 17 := by
      rcases hwzdef with ⟨_, hdef⟩
      rw [hdef]
      split <;> rename_i hcnd <;> omega
    have hcursor : ((k : ℤ) : ℚ) + workStep ((k : ℤ) : ℚ) ((n : ℤ) : ℚ)
        = ((k + wz : ℤ) : ℚ) := by
      rw [hwzdef.1]
      push_cast
      ring
    have hremnew : ((n : ℤ) : ℚ) - workStep ((k : ℤ) : ℚ) ((n : ℤ) : ℚ)
        = ((n - wz : ℤ) : ℚ) := by
      rw [hwzdef.1]
      push_cast
      ring
    have hc2 : ∃ k2 : ℤ, ((k : ℤ) : ℚ) + workStep ((k : ℤ) : ℚ) ((n : ℤ) : ℚ)
        = ((k2 : ℤ) : ℚ) := ⟨k + wz, hcursor⟩
    have hr2 : ∃ n2 : ℤ, 0 ≤ n2 ∧ ((n : ℤ) : ℚ) - workStep ((k : ℤ) : ℚ) ((n : ℤ) : ℚ)
        = ((n2 : ℤ) : ℚ) := ⟨n - wz, by omega, hremnew⟩
    have hWstep : workHoursUpTo (((k : ℤ) : ℚ) + workStep ((k : ℤ) : ℚ) ((n : ℤ) : ℚ))
        = workHoursUpTo ((k : ℤ) : ℚ) + ((wz : ℤ) : ℚ) := by
      rw [hcursor, workHoursUpTo_int, workHoursUpTo_int]
      have : (7 * ((k + wz) / 24) + (min (max ((k + wz) % 24 - 9) 0) 3
          + min (max ((k + wz) % 24 - 13) 0) 4) : ℤ)
          = (7 * (k / 24) + (min (max (k % 24 - 9) 0) 3
          + min (max (k % 24 - 13) 0) 4) + wz : ℤ) := by
        rcases hwzdef with ⟨_, hdef⟩
        rcases hwz1 with ⟨hwa, hwb, hwc⟩
        omega
      exact_mod_cast this
    obtain ⟨hint, hW, hst⟩ := ih hc2 hr2
    rw [allocLoop_work _ _ _ h0 h1 h2 h3]
    refine ⟨hint, ?_, ?_⟩
    · rw [hW, hWstep, hremnew]
      push_cast
      ring
    · refine Or.inr ⟨by exact_mod_cast hnpos, ?_⟩
      rcases hst with ⟨_, heq⟩ | ⟨_, s, hs, hsc⟩
      · refine ⟨st.getD ((k : ℤ) : ℚ), heq, ?_⟩
        cases st with
        | none => exact Or.inr ⟨rfl, rfl⟩
        | some s0 => exact Or.inl rfl
      · rcases hsc with hsc | ⟨hn2, _⟩
        · have hseq : s = st.getD ((k : ℤ) : ℚ) := by
            injection hsc.symm
          subst hseq
          refine ⟨st.getD ((k : ℤ) : ℚ), hs, ?_⟩
          cases st with
          | none => exact Or.inr ⟨rfl, rfl⟩
          | some s0 => exact Or.inl rfl
        · exact absurd hn2 (by simp)

theorem allocGo_W (c : ℚ) (ds : List ℚ) (hc : ∃ k : ℤ, c = (k : ℚ))
    (h : ∀ d ∈ ds, ∃ n : ℤ, 0 < n ∧ d = (n : ℚ)) :
    List.Forall₂ (fun d p => ∃ s, p.1 = some s ∧
      workHoursUpTo p.2 - workHoursUpTo s = d) ds (allocGo c ds) := by
  induction ds generalizing c with
  | nil => simp [allocGo]
  | cons d rest ih =>
    obtain ⟨n, hn, hd⟩ := h d (List.mem_cons_self d rest)
    have hW := allocLoop_W c none d hc ⟨n, le_of_lt hn, hd⟩
    rcases hW.2.2 with ⟨hle, _⟩ | ⟨hpos, s, hs, hsc⟩
    · rw [hd] at hle
      have : (0 : ℚ) < (n : ℚ) := by exact_mod_cast hn
      linarith
    rcases hsc with hcon | ⟨_, hWs⟩
    · exact absurd hcon (by simp)
    simp only [allocGo]
    refine List.Forall₂.cons ⟨s, hs, ?_⟩
      (ih (allocLoop c none d).1 hW.1
        (fun x hx => h x (List.mem_cons_of_mem d hx)))
    rw [hW.2.1, hWs]
    ring

theorem allocLoop_nine_four : allocLoop 9 none 4 = (14, some 9) := by
  rw [allocLoop_work 9 none 4 (by norm_num) (by norm_num [hourOf])
    (by norm_num [hourOf]) (by norm_num [hourOf])]
  rw [show workStep 9 4 = 3 by rw [workStep]; norm_num [hourOf]]
  norm_num
  rw [allocLoop_lunch 12 (some 9) 1 (by norm_num) (by norm_num [hourOf])
    (by norm_num [hourOf])]
  rw [show setHM 12 13 = 13 by rw [setHM]; norm_num [dayOf]]
  rw [allocLoop_work 13 (some 9) 1 (by norm_num) (by norm_num [hourOf])
    (by norm_num [hourOf]) (by norm_num [hourOf])]
  rw [show workStep 13 1 = 1 by rw [workStep]; norm_num [hourOf]]
  norm_num
  rw [allocLoop_done 14 (some 9) 0 le_rfl]

theorem allocLoop_halfstep : allocLoop 9 none (1 / 2) = (19 / 2, some 9) := by
  rw [allocLoop_work 9 none (1 / 2) (by norm_num) (by norm_num [hourOf])
    (by norm_num [hourOf]) (by norm_num [hourOf])]
  rw [show workStep 9 (1 / 2) = 1 / 2 by rw [workStep]; norm_num [hourOf]]
  norm_num
  rw [allocLoop_done (19 / 2) (some 9) 0 le_rfl]

theorem allocLoop_from_half : allocLoop (19 / 2) none 4 = (14, some (19 / 2)) := by
  rw [allocLoop_work (19 / 2) none 4 (by norm_num) (by norm_num [hourOf])
    (by norm_num [hourOf]) (by norm_num [hourOf])]
  rw [show workStep (19 / 2) 4 = 3 by rw [workStep]; norm_num [hourOf]]
  norm_num
  rw [allocLoop_lunch (25 / 2) (some (19 / 2)) 1 (by norm_num)
    (by norm_num [hourOf]) (by norm_num [hourOf])]
  rw [show setHM (25 / 2) 13 = 13 by rw [setHM]; norm_num [dayOf]]
  rw [allocLoop_work 13 (some (19 / 2)) 1 (by norm_num) (by norm_num [hourOf])
    (by norm_num [hourOf]) (by norm_num [hourOf])]
  rw [show workStep 13 1 = 1 by rw [workStep]; norm_num [hourOf]]
  norm_num
  rw [allocLoop_done 14 (some (19 / 2)) 0 le_rfl]

/-- C5 counterexample: a single 4-hour task allocated from a 09:00 day-start
    gets the window ScheduledStart = 9, ScheduledEnd = 14 (hours on day 0), and
    the instant 12:30 (25/2) lies inside that window and inside the day's lunch
    window [12:00, 13:00) — so the allocated interval does intersect a lunch
    window, contradicting the no-lunch-intersection half of the claim. -/
theorem c5_counterexample :
    allocate_schedule 0 [4] = [(some 9, 14)] ∧
    (9 : ℚ) ≤ 25 / 2 ∧ (25 / 2 : ℚ) ≤ 14 ∧
    (12 : ℚ) ≤ 25 / 2 - 24 * (dayOf (25 / 2) : ℚ) ∧
    (25 / 2 : ℚ) - 24 * (dayOf (25 / 2) : ℚ) < 13 := by
  refine ⟨?_, by norm_num, by norm_num, by norm_num [dayOf], by norm_num [dayOf]⟩
  rw [allocate_schedule]
  rw [show ((24 * dayOf (0 : ℚ) + 9 : ℤ) : ℚ) = 9 by norm_num [dayOf]]
  simp [allocGo, allocLoop_nine_four]

/-- C5 (amended): for every start instant and every duration list with positive
    EstimatedHours, allocation is sequential: every task gets a ScheduledStart
    with ScheduledStart ≤ ScheduledEnd, and for all consecutive tasks the
    earlier task's ScheduledEnd is ≤ the later task's ScheduledStart.  (The
    no-lunch-intersection half of the original claim is dropped: a window may
    span a lunch break, as c5_counterexample shows.) -/
theorem c5_amended (now : ℚ) (durs : List ℚ) (h : ∀ d ∈ durs, 0 < d) :
    (∀ p ∈ allocate_schedule now durs, ∃ s, p.1 = some s ∧ s ≤ p.2) ∧
    List.Chain' (fun a b => ∀ s2 ∈ b.1, a.2 ≤ s2) (allocate_schedule now durs) := by
  have hgo := allocGo_seq ((24 * dayOf now + 9 : ℤ) : ℚ) durs h
  exact ⟨fun p hp => (hgo.1 p hp).imp (fun s hs => ⟨hs.1, hs.2.2⟩), hgo.2⟩

theorem c5_amended_witness :
    (∀ d ∈ [(4 : ℚ)], 0 < d) ∧
    ((∀ p ∈ allocate_schedule 0 [(4 : ℚ)], ∃ s, p.1 = some s ∧ s ≤ p.2) ∧
      List.Chain' (fun a b => ∀ s2 ∈ b.1, a.2 ≤ s2)
        (allocate_schedule 0 [(4 : ℚ)])) :=
  ⟨by norm_num, c5_amended 0 [4] (by norm_num)⟩

/-- C6 counterexample: for the duration list [0.5, 4] allocated from a 09:00
    day-start, the second task is scheduled from 9.5 to 14 (hours on day 0),
    but the workable time in that window — inside [09:00, 17:00) minus lunch
    [12:00, 13:00) — is 3.5 hours, not the 4 estimated hours: the lunch cap
    uses the truncated integer hour, so the step from 9:30 runs to 12:30,
    working half an hour into lunch, and that half hour is lost. -/
theorem c6_counterexample :
    allocate_schedule 0 [1 / 2, 4] = [(some 9, 19 / 2), (some (19 / 2), 14)] ∧
    workHoursUpTo 14 - workHoursUpTo (19 / 2) = 7 / 2 ∧ (7 / 2 : ℚ) ≠ 4 := by
  refine ⟨?_, ?_, by norm_num⟩
  · rw [allocate_schedule]
    rw [show ((24 * dayOf (0 : ℚ) + 9 : ℤ) : ℚ) = 9 by norm_num [dayOf]]
    simp only [allocGo, allocLoop_halfstep, allocLoop_from_half]
  · rw [workHoursUpTo, workHoursUpTo, wday, wday]
    norm_num [dayOf, min_def, max_def]

/-- C6 (amended): when every EstimatedHours is a positive integer, allocation
    is exact: every task gets a ScheduledStart, and the workable hours between
    its ScheduledStart and ScheduledEnd — counting only time inside working
    days [09:00, 17:00) and excluding lunch [12:00, 13:00), as measured by
    workHoursUpTo — equal its EstimatedHours.  (For fractional durations the
    claim fails: c6_counterexample loses half an hour to lunch.) -/
theorem c6_amended (now : ℚ) (durs : List ℚ)
    (h : ∀ d ∈ durs, ∃ n : ℤ, 0 < n ∧ d = (n : ℚ)) :
    List.Forall₂ (fun d p => ∃ s, p.1 = some s ∧
      workHoursUpTo p.2 - workHoursUpTo s = d) durs (allocate_schedule now durs) :=
  allocGo_W ((24 * dayOf now + 9 : ℤ) : ℚ) durs ⟨24 * dayOf now + 9, rfl⟩ h

theorem c6_amended_witness :
    (∀ d ∈ [(4 : ℚ)], ∃ n : ℤ, 0 < n ∧ d = (n : ℚ)) ∧
    List.Forall₂ (fun d p => ∃ s, p.1 = some s ∧
      workHoursUpTo p.2 - workHoursUpTo s = d) [(4 : ℚ)]
      (allocate_schedule 0 [(4 : ℚ)]) :=
  ⟨by intro d hd; exact ⟨4, by norm_num, by simp at hd; rw [hd]; norm_num⟩,
    c6_amended 0 [4] (by intro d hd; exact ⟨4, by norm_num, by simp at hd; rw [hd]; norm_num⟩)⟩

end AutoTask
